import Mathlib

/-!
Verification development for the Fluor-Tools identifier-reconciliation and
record-validation engine (src/tools/mapper.py and src/tools/auditor.py).

Python strings are modelled as `List Char`, Python floats as `ℚ` (the audited
operations only compare values, never round), Python `dict`s as
insertion-ordered association lists, and Python `set`s as duplicate-free lists
in first-insertion order (no theorem below depends on set iteration order).
-/

namespace FluorTools

/-- The result pair every validator stores: `(valid, errors)`
(`AbstractAudit.__init__`, src/tools/auditor.py lines 189-191). -/
structure AuditResult where
  valid : Bool
  errors : List String
deriving DecidableEq

/-! ### AuditHeader (src/tools/auditor.py lines 349-397) -/

def lowercaseLetters : List Char := "abcdefghijklmnopqrstuvwxyz".toList

def headerLegalChars : List Char := "ABCDEFGHIJKLMNOPQRSTUVWXYZ0123456789".toList

/-- The per-character counters accumulated by `AuditHeader.audit`'s loop. -/
structure HeaderScan where
  colonCount : Nat
  charLower : Nat
  charIllegal : Nat
  charLast : Nat
  colonMultiple : Nat
deriving DecidableEq

/-- One iteration of the `for i, letter in enumerate(data)` loop of
`AuditHeader.audit`.  The final branch (`elif i == len(data) - 1 and
letter == ":"`) is kept exactly as written in the source: it can only be
reached by a character that is not a colon, so `charLast` is never
incremented. -/
def auditHeaderStep (len : Nat) (acc : HeaderScan) (ic : Nat × Char) : HeaderScan :=
  if ic.2 = ':' then
    { acc with
      colonMultiple := if 1 ≤ acc.colonCount then acc.colonMultiple + 1 else acc.colonMultiple,
      colonCount := acc.colonCount + 1 }
  else if ic.2 ∈ lowercaseLetters then
    { acc with charLower := acc.charLower + 1 }
  else if ic.2 ∉ headerLegalChars then
    { acc with charIllegal := acc.charIllegal + 1 }
  else if ic.1 = len - 1 ∧ ic.2 = ':' then
    { acc with charLast := acc.charLast + 1 }
  else
    acc

/-- `AuditHeader.audit` (src/tools/auditor.py lines 353-397). -/
def auditHeader (data : List Char) : AuditResult :=
  if data = [] then
    { valid := false, errors := ["illegal missing header"] }
  else
    let s := data.enum.foldl (auditHeaderStep data.length) ⟨0, 0, 0, 0, 0⟩
    let errs :=
      (if s.charLower ≠ 0 then [toString s.charLower ++ " illegal lower key characters"] else []) ++
      (if s.charIllegal ≠ 0 then [toString s.charIllegal ++ " illegal characters"] else []) ++
      (if s.charLast ≠ 0 then [toString s.charLast ++ " illegal final characters (:)"] else []) ++
      (if s.colonMultiple ≠ 0 then [toString s.colonMultiple ++ " illegal multiple colons"] else [])
    { valid := errs.isEmpty, errors := errs }

/-! ### AuditUrl (src/tools/auditor.py lines 534-595) -/

/-- `AuditUrl.audit` (src/tools/auditor.py lines 538-595), reproduced with the
source's exact slice bounds (`address[8:]` after matching the 7-character
`http://` prefix, `address[9:]` after the 8-character `https://` prefix) and
with the query/fragment checks written exactly as in the source: `"?" in
address` where `address` is the *list* produced by `split("/")`, i.e. a
membership test against whole path segments. -/
def auditUrl (data : List Char) : AuditResult :=
  if data = [] then
    { valid := false, errors := ["missing url"] }
  else
    let body? : Option (List Char) :=
      if 7 ≤ data.length ∧ data.take 7 = "http://".toList then some (data.drop 8)
      else if 8 ≤ data.length ∧ data.take 8 = "https://".toList then some (data.drop 9)
      else none
    match body? with
    | none => { valid := false, errors := ["missing http(s)://"] }
    | some body =>
      let parts := body.splitOn '/'
      if parts.length ≤ 1 then
        { valid := false, errors := ["address too general"] }
      else
        let host := (parts.headD []).splitOn '.'
        if host.length ≤ 1 then
          { valid := false, errors := ["incorret hostname"] }
        else if host.getLastD [] = "arpa".toList then
          { valid := false, errors := ["arpa domain is not allowed"] }
        else if 3 < (host.getLastD []).length ∨ (host.getLastD []).length ≤ 1 then
          { valid := false, errors := ["impossible address domain"] }
        else if parts.any (fun part => part.length = 0) then
          { valid := false, errors := ["missing section in domain"] }
        else if "?".toList ∈ parts then
          { valid := false, errors := ["query's not allowed in address"] }
        else if "#".toList ∈ parts then
          { valid := false, errors := ["fragment's not allowed in address"] }
        else
          { valid := true, errors := [] }

/-! ### AuditSpectrumIntensity (src/tools/auditor.py lines 1342-1388) -/

/-- The four loop variables of `AuditSpectrumIntensity.audit`:
`valid_value_min`, `valid_value_max`, `max_intensity_value`,
`min_intensity_value`. -/
structure IntensityScan where
  validMin : Bool
  validMax : Bool
  maxV : ℚ
  minV : ℚ
deriving DecidableEq

/-- One iteration of the `for point in data` loop of
`AuditSpectrumIntensity.audit` (lines 1364-1372), including the source's
`if point > max_intensity_value: ... elif point < min_intensity_value: ...`
shape. -/
def intensityStep (acc : IntensityScan) (p : ℚ) : IntensityScan :=
  { validMin := if p < 0 then false else acc.validMin,
    validMax := if 100 < p then false else acc.validMax,
    maxV := if acc.maxV < p then p else acc.maxV,
    minV := if acc.maxV < p then acc.minV else if p < acc.minV then p else acc.minV }

/-- `AuditSpectrumIntensity.audit` (src/tools/auditor.py lines 1346-1388).
`max_intensity_value` and `min_intensity_value` both start at `data[0]`. -/
def auditSpectrumIntensity (data : List ℚ) : AuditResult :=
  match data with
  | [] => { valid := false, errors := ["missing intensity"] }
  | d :: rest =>
    let s := (d :: rest).foldl intensityStep ⟨true, true, d, d⟩
    let errs :=
      (if (d :: rest).length ≤ 2 then ["intensity contains <= 2 data points"] else []) ++
      (if s.validMin then [] else ["contains entree <0"]) ++
      (if s.validMax then [] else ["contains entree >100"]) ++
      (if s.maxV ≠ 100 then ["maximum intensity value is " ++ toString s.maxV ++ ", should be 100"] else []) ++
      (if s.minV ≠ 0 then ["minimum intensity value is " ++ toString s.minV ++ ", should be 0"] else [])
    { valid := errs.isEmpty, errors := errs }

lemma intensityStep_validMin (acc : IntensityScan) (p : ℚ) :
    (intensityStep acc p).validMin = (acc.validMin && decide (0 ≤ p)) := by
  by_cases h : p < 0
  · simp [intensityStep, h, not_le.2 h]
  · simp [intensityStep, h, not_lt.1 h]

lemma intensityStep_validMax (acc : IntensityScan) (p : ℚ) :
    (intensityStep acc p).validMax = (acc.validMax && decide (p ≤ 100)) := by
  by_cases h : 100 < p
  · simp [intensityStep, h, not_le.2 h]
  · simp [intensityStep, h, not_lt.1 h]

lemma intensityStep_maxV (acc : IntensityScan) (p : ℚ) :
    (intensityStep acc p).maxV = max acc.maxV p := by
  by_cases h : acc.maxV < p
  · simp [intensityStep, h, max_eq_right h.le]
  · simp [intensityStep, h, max_eq_left (not_lt.1 h)]

lemma intensityStep_minV (acc : IntensityScan) (p : ℚ) (h : acc.minV ≤ acc.maxV) :
    (intensityStep acc p).minV = min acc.minV p := by
  by_cases h1 : acc.maxV < p
  · simp [intensityStep, h1, min_eq_left (h.trans h1.le)]
  · by_cases h2 : p < acc.minV
    · simp [intensityStep, h1, h2, min_eq_right h2.le]
    · simp [intensityStep, h1, h2, min_eq_left (not_lt.1 h2)]

lemma foldl_intensityStep_validMin (l : List ℚ) (acc : IntensityScan) :
    (l.foldl intensityStep acc).validMin = (acc.validMin && l.all fun p => decide (0 ≤ p)) := by
  induction l generalizing acc with
  | nil => simp
  | cons p l ih =>
    rw [List.foldl_cons, ih, intensityStep_validMin, List.all_cons, Bool.and_assoc]

lemma foldl_intensityStep_validMax (l : List ℚ) (acc : IntensityScan) :
    (l.foldl intensityStep acc).validMax = (acc.validMax && l.all fun p => decide (p ≤ 100)) := by
  induction l generalizing acc with
  | nil => simp
  | cons p l ih =>
    rw [List.foldl_cons, ih, intensityStep_validMax, List.all_cons, Bool.and_assoc]

lemma foldl_intensityStep_max_min (l : List ℚ) (acc : IntensityScan)
    (h : acc.minV ≤ acc.maxV) :
    (l.foldl intensityStep acc).maxV = l.foldl max acc.maxV ∧
    (l.foldl intensityStep acc).minV = l.foldl min acc.minV := by
  induction l generalizing acc with
  | nil => exact ⟨rfl, rfl⟩
  | cons p l ih =>
    have hinv : (intensityStep acc p).minV ≤ (intensityStep acc p).maxV := by
      rw [intensityStep_maxV, intensityStep_minV acc p h]
      exact (min_le_left _ _).trans (h.trans (le_max_left _ _))
    have := ih (intensityStep acc p) hinv
    rw [List.foldl_cons, List.foldl_cons, List.foldl_cons, this.1, this.2,
      intensityStep_maxV, intensityStep_minV acc p h]
    exact ⟨rfl, rfl⟩

lemma foldl_max_le {l : List ℚ} {a b : ℚ} (ha : a ≤ b) (hl : ∀ x ∈ l, x ≤ b) :
    l.foldl max a ≤ b := by
  induction l generalizing a with
  | nil => exact ha
  | cons x l ih =>
    exact ih (max_le ha (hl x (List.mem_cons_self _ _))) fun y hy => hl y (List.mem_cons_of_mem _ hy)

lemma le_foldl_max_init (l : List ℚ) (a : ℚ) : a ≤ l.foldl max a := by
  induction l generalizing a with
  | nil => exact le_refl a
  | cons x l ih => exact (le_max_left a x).trans (ih _)

lemma le_foldl_max_mem {l : List ℚ} {x : ℚ} (a : ℚ) (h : x ∈ l) : x ≤ l.foldl max a := by
  induction l generalizing a with
  | nil => cases h
  | cons y l ih =>
    rcases List.mem_cons.1 h with rfl | h
    · exact (le_max_right a x).trans (le_foldl_max_init _ _)
    · exact ih _ h

lemma foldl_max_mem (l : List ℚ) (a : ℚ) : l.foldl max a = a ∨ l.foldl max a ∈ l := by
  induction l generalizing a with
  | nil => exact Or.inl rfl
  | cons x l ih =>
    rcases ih (max a x) with h | h
    · by_cases hax : a ≤ x
      · right
        rw [List.foldl_cons, h, max_eq_right hax]
        exact List.mem_cons_self _ _
      · left
        rw [List.foldl_cons, h, max_eq_left (le_of_not_le hax)]
    · right
      rw [List.foldl_cons]
      exact List.mem_cons_of_mem _ h

lemma le_foldl_min {l : List ℚ} {a b : ℚ} (ha : b ≤ a) (hl : ∀ x ∈ l, b ≤ x) :
    b ≤ l.foldl min a := by
  induction l generalizing a with
  | nil => exact ha
  | cons x l ih =>
    exact ih (le_min ha (hl x (List.mem_cons_self _ _))) fun y hy => hl y (List.mem_cons_of_mem _ hy)

lemma foldl_min_le_init (l : List ℚ) (a : ℚ) : l.foldl min a ≤ a := by
  induction l generalizing a with
  | nil => exact le_refl a
  | cons x l ih => exact (ih _).trans (min_le_left a x)

lemma foldl_min_le_mem {l : List ℚ} {x : ℚ} (a : ℚ) (h : x ∈ l) : l.foldl min a ≤ x := by
  induction l generalizing a with
  | nil => cases h
  | cons y l ih =>
    rcases List.mem_cons.1 h with rfl | h
    · exact (foldl_min_le_init l (min a x)).trans (min_le_right a x)
    · exact ih _ h

lemma foldl_min_mem (l : List ℚ) (a : ℚ) : l.foldl min a = a ∨ l.foldl min a ∈ l := by
  induction l generalizing a with
  | nil => exact Or.inl rfl
  | cons x l ih =>
    rcases ih (min a x) with h | h
    · by_cases hax : x ≤ a
      · right
        rw [List.foldl_cons, h, min_eq_right hax]
        exact List.mem_cons_self _ _
      · left
        rw [List.foldl_cons, h, min_eq_left (le_of_not_le hax)]
    · right
      rw [List.foldl_cons]
      exact List.mem_cons_of_mem _ h

lemma ite_cons_eq_nil_iff {c : Prop} [Decidable c] {x : String} {xs : List String} :
    ((if c then x :: xs else []) = []) ↔ ¬c := by
  split <;> simp_all

lemma ite_nil_eq_nil_iff {c : Prop} [Decidable c] {x : String} {xs : List String} :
    ((if c then [] else x :: xs) = []) ↔ c := by
  split <;> simp_all

lemma auditSpectrumIntensity_valid_cons (d : ℚ) (rest : List ℚ) :
    (auditSpectrumIntensity (d :: rest)).valid = true ↔
      (¬ (d :: rest).length ≤ 2 ∧
       ((d :: rest).foldl intensityStep ⟨true, true, d, d⟩).validMin = true ∧
       ((d :: rest).foldl intensityStep ⟨true, true, d, d⟩).validMax = true ∧
       ((d :: rest).foldl intensityStep ⟨true, true, d, d⟩).maxV = 100 ∧
       ((d :: rest).foldl intensityStep ⟨true, true, d, d⟩).minV = 0) := by
  simp only [auditSpectrumIntensity, List.isEmpty_iff, List.append_eq_nil,
    ite_cons_eq_nil_iff, ite_nil_eq_nil_iff, not_not, and_assoc]

lemma foldl_max_eq_iff_maximum (d : ℚ) (rest : List ℚ) (m : ℚ) :
    (d :: rest).foldl max d = m ↔ (d :: rest).maximum = (m : WithBot ℚ) := by
  rw [List.maximum_eq_coe_iff]
  constructor
  · intro h
    refine ⟨?_, fun a ha => h ▸ le_foldl_max_mem d ha⟩
    rcases foldl_max_mem (d :: rest) d with h' | h'
    · rw [← h, h']
      exact List.mem_cons_self _ _
    · exact h ▸ h'
  · rintro ⟨hmem, hle⟩
    exact le_antisymm (foldl_max_le (hle d (List.mem_cons_self _ _)) hle) (le_foldl_max_mem d hmem)

lemma foldl_min_eq_iff_minimum (d : ℚ) (rest : List ℚ) (m : ℚ) :
    (d :: rest).foldl min d = m ↔ (d :: rest).minimum = (m : WithTop ℚ) := by
  rw [List.minimum_eq_coe_iff]
  constructor
  · intro h
    refine ⟨?_, fun a ha => h ▸ foldl_min_le_mem d ha⟩
    rcases foldl_min_mem (d :: rest) d with h' | h'
    · rw [← h, h']
      exact List.mem_cons_self _ _
    · exact h ▸ h'
  · rintro ⟨hmem, hle⟩
    exact le_antisymm (foldl_min_le_mem d hmem) (le_foldl_min (hle d (List.mem_cons_self _ _)) hle)

/-- C9: `AuditSpectrumIntensity.audit` yields `valid = True` exactly when the
intensity list has at least 3 points, every value lies in `[0, 100]`, the
maximum value equals exactly 100 and the minimum value equals exactly 0. -/
theorem auditSpectrumIntensity_valid_iff (data : List ℚ) :
    (auditSpectrumIntensity data).valid = true ↔
      3 ≤ data.length ∧ (∀ x ∈ data, 0 ≤ x ∧ x ≤ 100) ∧
      data.maximum = (100 : ℚ) ∧ data.minimum = (0 : ℚ) := by
  match data with
  | [] => simp [auditSpectrumIntensity]
  | d :: rest =>
    rw [auditSpectrumIntensity_valid_cons]
    have hmm := foldl_intensityStep_max_min (d :: rest) ⟨true, true, d, d⟩ (le_refl d)
    rw [hmm.1, hmm.2, foldl_intensityStep_validMin, foldl_intensityStep_validMax,
      foldl_max_eq_iff_maximum, foldl_min_eq_iff_minimum]
    simp only [Bool.true_and, List.all_eq_true, decide_eq_true_eq]
    constructor
    · rintro ⟨h1, h2, h3, h4, h5⟩
      exact ⟨by omega, fun x hx => ⟨h2 x hx, h3 x hx⟩, h4, h5⟩
    · rintro ⟨h1, h2, h3, h4⟩
      exact ⟨by omega, fun x hx => (h2 x hx).1, fun x hx => (h2 x hx).2, h3, h4⟩


/-! ### AuditReference (src/tools/auditor.py lines 984-1103) -/

/-- The state of an `AbstractAuditList` validator (valid, errors, audits)
(src/tools/auditor.py lines 247-254). -/
structure ListAuditState where
  valid : Bool
  errors : List String
  audits : List AuditResult
deriving DecidableEq

/-- The attributes of an `AuditReference` instance
(src/tools/auditor.py lines 988-1002). -/
structure AuditReferenceState where
  valid : Bool
  errors : List String
  isUrl : Bool
  url : AuditResult
  title : AuditResult
  authors : ListAuditState
  year : AuditResult
  journal : AuditResult
  volume : AuditResult
  issue : AuditResult
  pages : AuditResult
  doi : AuditResult
  urlPubmed : AuditResult
  urlDoi : AuditResult
deriving DecidableEq

/-- A freshly constructed `AbstractAudit`: `valid = False`,
`errors = ["unchecked"]` (lines 189-191). -/
def freshAudit : AuditResult := ⟨false, ["unchecked"]⟩

/-- A freshly constructed `AbstractAuditList` (lines 247-251). -/
def freshListAudit : ListAuditState := ⟨false, ["unchecked"], []⟩

/-- A freshly constructed `AuditReference` before any `audit` call
(lines 988-1002, after `super().__init__()`). -/
def freshAuditReference : AuditReferenceState :=
  { valid := false, errors := ["unchecked"], isUrl := false, url := freshAudit,
    title := freshAudit, authors := freshListAudit, year := freshAudit,
    journal := freshAudit, volume := freshAudit, issue := freshAudit,
    pages := freshAudit, doi := freshAudit, urlPubmed := freshAudit,
    urlDoi := freshAudit }

/-- The branch of `AuditReference.audit` taken for a reference whose `url`
field is truthy (src/tools/auditor.py lines 1031-1034): the method sets
`self.is_url = True`, runs `self.url.audit(data.url)` and returns
immediately, so `self.valid` and `self.errors` keep their prior values.
The bibliographic branch below that early `return` is not reached for a
non-empty url and is not modelled by this function; every theorem using it
supplies a non-empty url. -/
def auditReferenceUrlCase (st : AuditReferenceState) (url : List Char) : AuditReferenceState :=
  { st with isUrl := true, url := auditUrl url }

/-! ### reset methods (src/tools/auditor.py lines 128-151 and 196-202) -/

/-- A Python statement shape relevant to `AbstractAudit.reset`: an assignment
to a bare name (which creates a function-local binding) or an expression that
begins by resolving a bare name. -/
inductive PyStmt where
  | assignLocal (name : String)
  | useName (name : String)
deriving DecidableEq

/-- Module-level names of src/tools/auditor.py that a bare-name lookup could
resolve against: the imports (lines 59-61) and the class definitions. None of
them is named `errors` or `valid`. -/
def auditorModuleGlobals : List String :=
  ["List", "Union", "Tuple", "Data", "Reference", "Auditor", "AbstractAudit",
   "AbstractAuditList", "AuditHeader", "AuditNames", "AuditName", "AuditEnable",
   "AuditSource", "AuditCategories", "AuditUrl", "AuditAuthor", "AuditAuthors",
   "AuditTitle", "AuditYear", "AuditJournal", "AuditVolume", "AuditIssue",
   "AuditPages", "AuditDOI", "AuditUrlPubmed", "AuditUrlDOI", "AuditReferences",
   "AuditReference", "AuditExtinctionCoefficient", "AuditQuantumYield",
   "AuditCrossSection", "AuditBrightness", "AuditBrightnessBin",
   "AuditSpectrumWavelength", "AuditSpectrumIntensity", "AuditSpectrum"]

/-- The Python builtins referenced anywhere in the module (a superset of what
`reset` could see); the builtin namespace has no entry named `errors` or
`valid` either. -/
def pythonBuiltinNames : List String :=
  ["abs", "enumerate", "float", "getattr", "hash", "input", "int", "isinstance",
   "len", "list", "print", "range", "repr", "reversed", "NotImplementedError",
   "ValueError", "KeyError", "NameError", "StopIteration"]

/-- Runs a method body under Python name resolution: an assignment adds a
local; evaluating a bare name that is neither a local, a module global nor a
builtin raises `NameError` naming it. Returns the offending name, or `none`
when the body completes. -/
def runBody : List PyStmt → List String → Option String
  | [], _ => none
  | PyStmt.assignLocal n :: rest, locals => runBody rest (n :: locals)
  | PyStmt.useName n :: rest, locals =>
    if n ∈ locals ∨ n ∈ auditorModuleGlobals ∨ n ∈ pythonBuiltinNames then runBody rest locals
    else some n

/-- The body of `AbstractAudit.reset` (src/tools/auditor.py lines 196-202):
`valid = False` binds a local named `valid`; `errors.clear()` and
`errors.append("unchecked")` each begin by resolving the bare name `errors`
(not `self.errors`). -/
def abstractAuditResetBody : List PyStmt :=
  [PyStmt.assignLocal "valid", PyStmt.useName "errors", PyStmt.useName "errors"]

/-- Outcome of a Python call that can raise `NameError`; the raising call
leaves the instance state it was given (the body mutated no attribute). -/
inductive NameOutcome (α : Type) where
  | ok (state : α)
  | nameError (name : String) (state : α)
deriving DecidableEq

/-- `AbstractAudit.reset` (src/tools/auditor.py lines 196-202), inherited by
every scalar field validator: executes the body on the instance `st`; no
statement of the body writes an instance attribute, so `st` would be returned
unchanged if execution completed. -/
def abstractAuditReset (st : AuditResult) : NameOutcome AuditResult :=
  match runBody abstractAuditResetBody [] with
  | some n => NameOutcome.nameError n st
  | none => NameOutcome.ok st

/-- `AbstractAuditList.reset` (src/tools/auditor.py lines 256-260): writes
`self.valid`, `self.errors`, `self.audits` — this override is correct and
never raises. -/
def abstractAuditListReset (_st : ListAuditState) : ListAuditState :=
  ⟨false, ["unchecked"], []⟩

/-- The attributes of an `AuditSpectrum` instance
(src/tools/auditor.py lines 1394-1404). -/
structure SpectrumAuditState where
  valid : Bool
  errors : List String
  wavelengthMissing : Bool
  wavelength : AuditResult
  intensityMissing : Bool
  intensity : AuditResult
deriving DecidableEq

/-- `AuditSpectrum.reset` (src/tools/auditor.py lines 1409-1417): resets its
own flags, then calls `self.wavelength.reset()` and `self.intensity.reset()`,
both of which dispatch to the inherited `AbstractAudit.reset`. -/
def auditSpectrumReset (st : SpectrumAuditState) : NameOutcome SpectrumAuditState :=
  let st1 := { st with valid := false, errors := ["unchecked"], wavelengthMissing := true }
  match abstractAuditReset st1.wavelength with
  | NameOutcome.nameError n _ => NameOutcome.nameError n st1
  | NameOutcome.ok w =>
    let st2 := { st1 with wavelength := w, intensityMissing := true }
    match abstractAuditReset st2.intensity with
    | NameOutcome.nameError n _ => NameOutcome.nameError n st2
    | NameOutcome.ok i => NameOutcome.ok { st2 with intensity := i }

/-- The sub-validator attributes of an `Auditor` instance
(src/tools/auditor.py lines 72-91).  `names` and `references` are
`AbstractAuditList` subclasses; for the reset path only the list shape
matters (the audits list is cleared, never read). -/
structure AuditorState where
  header : AuditResult
  enable : AuditResult
  source : AuditResult
  categories : AuditResult
  names : ListAuditState
  extinctionCoefficient : AuditResult
  quantumYield : AuditResult
  crossSection : AuditResult
  brightness : AuditResult
  brightnessBin : AuditResult
  url : AuditResult
  references : ListAuditState
  absorption : SpectrumAuditState
  excitation : SpectrumAuditState
  emission : SpectrumAuditState
  twoPhoton : SpectrumAuditState
deriving DecidableEq

/-- `Auditor.reset` (src/tools/auditor.py lines 128-151): calls `reset()` on
each sub-validator in source order; an exception raised by any of them
propagates. `AuditHeader` (like every scalar validator) inherits
`AbstractAudit.reset`. -/
def auditorReset (st : AuditorState) : NameOutcome AuditorState :=
  match abstractAuditReset st.header with
  | NameOutcome.nameError n _ => NameOutcome.nameError n st
  | NameOutcome.ok h =>
    let st := { st with header := h }
    match abstractAuditReset st.enable with
    | NameOutcome.nameError n _ => NameOutcome.nameError n st
    | NameOutcome.ok e =>
      let st := { st with enable := e }
      match abstractAuditReset st.source with
      | NameOutcome.nameError n _ => NameOutcome.nameError n st
      | NameOutcome.ok s =>
        let st := { st with source := s }
        match abstractAuditReset st.categories with
        | NameOutcome.nameError n _ => NameOutcome.nameError n st
        | NameOutcome.ok c =>
          let st := { st with categories := c, names := abstractAuditListReset st.names }
          match abstractAuditReset st.extinctionCoefficient with
          | NameOutcome.nameError n _ => NameOutcome.nameError n st
          | NameOutcome.ok ec =>
            let st := { st with extinctionCoefficient := ec }
            match abstractAuditReset st.quantumYield with
            | NameOutcome.nameError n _ => NameOutcome.nameError n st
            | NameOutcome.ok qy =>
              let st := { st with quantumYield := qy }
              match abstractAuditReset st.crossSection with
              | NameOutcome.nameError n _ => NameOutcome.nameError n st
              | NameOutcome.ok cs =>
                let st := { st with crossSection := cs }
                match abstractAuditReset st.brightness with
                | NameOutcome.nameError n _ => NameOutcome.nameError n st
                | NameOutcome.ok b =>
                  let st := { st with brightness := b }
                  match abstractAuditReset st.brightnessBin with
                  | NameOutcome.nameError n _ => NameOutcome.nameError n st
                  | NameOutcome.ok bb =>
                    let st := { st with brightnessBin := bb }
                    match abstractAuditReset st.url with
                    | NameOutcome.nameError n _ => NameOutcome.nameError n st
                    | NameOutcome.ok u =>
                      let st := { st with url := u, references := abstractAuditListReset st.references }
                      match auditSpectrumReset st.absorption with
                      | NameOutcome.nameError n _ => NameOutcome.nameError n st
                      | NameOutcome.ok ab =>
                        let st := { st with absorption := ab }
                        match auditSpectrumReset st.excitation with
                        | NameOutcome.nameError n _ => NameOutcome.nameError n st
                        | NameOutcome.ok ex =>
                          let st := { st with excitation := ex }
                          match auditSpectrumReset st.emission with
                          | NameOutcome.nameError n _ => NameOutcome.nameError n st
                          | NameOutcome.ok em =>
                            let st := { st with emission := em }
                            match auditSpectrumReset st.twoPhoton with
                            | NameOutcome.nameError n _ => NameOutcome.nameError n st
                            | NameOutcome.ok tp => NameOutcome.ok { st with twoPhoton := tp }

/-- C8: evaluation at a concrete reference whose non-empty `url` passes the
URL check: `AuditReference.audit` runs the URL sub-audit (which reports
valid) but returns without writing `self.valid`, so the reference's own
verdict stays at the constructed `False`/`["unchecked"]` instead of equalling
the URL validator's verdict — the claim fails on the code. -/
theorem auditReference_url_mode_keeps_unchecked_valid :
    "https://xdoi.org/10.1000/j".toList ≠ ([] : List Char) ∧
    (auditReferenceUrlCase freshAuditReference "https://xdoi.org/10.1000/j".toList).url.valid = true ∧
    (auditReferenceUrlCase freshAuditReference "https://xdoi.org/10.1000/j".toList).valid = false ∧
    (auditReferenceUrlCase freshAuditReference "https://xdoi.org/10.1000/j".toList).errors = ["unchecked"] := by
  refine ⟨by decide, by decide, rfl, rfl⟩

/-- C10: `AbstractAudit.reset` — inherited by every scalar field validator —
raises `NameError` on every call and for every validator state, because the
bare name `errors` resolves to no local, module-global or builtin binding
(`valid = False` merely creates a local); consequently `Auditor.reset`, whose
first statement is `self.header.reset()`, raises the same `NameError` for
every auditor state instead of resetting anything. -/
theorem reset_always_raises_nameError (a : AuditResult) (st : AuditorState) :
    abstractAuditReset a = NameOutcome.nameError "errors" a ∧
    auditorReset st = NameOutcome.nameError "errors" st :=
  ⟨rfl, rfl⟩

/-- C6: evaluation at the failing input `"AB:"` — a non-empty string over
`[A-Z0-9]` followed by a single final colon.  The claim (and the spec) say it
must be reported invalid, but the source's `elif i == len(data) - 1 and
letter == ":"` branch is unreachable (a colon is consumed by the first branch
of the chain), so the code reports it valid with no errors. -/
theorem auditHeader_accepts_single_trailing_colon :
    auditHeader "AB:".toList = ⟨true, []⟩ := by
  decide

/-- C7: evaluation at the failing input `"https://xdoi.org/10?a"`, which
contains a literal `'?'`.  The claim (and the spec) say any literal `?` makes
the URL invalid, but the source checks `"?" in address` after
`address = address.split("/")`, i.e. it only rejects a path segment that is
exactly `"?"`, so this URL is reported valid. -/
theorem auditUrl_accepts_embedded_query_character :
    '?' ∈ "https://xdoi.org/10?a".toList ∧
    auditUrl "https://xdoi.org/10?a".toList = ⟨true, []⟩ := by
  exact ⟨by decide, by decide⟩

/-! ## Mapper (src/tools/mapper.py) -/

/-- The `Source` enumeration (src/tools/__init__.py lines 49-63). -/
inductive Source where
  | none
  | source
  | bd
  | biolegend
  | biotium
  | chroma
  | fluorofinder
  | fpbase
  | thermofisher
deriving DecidableEq

/-- `Identifier` (src/tools/mapper.py lines 69-141).  The `note` field is
omitted: `Identifier.__eq__` and `__hash__` ignore it and none of the
operations modelled here reads it. -/
structure Identifier where
  source : Source
  identifier : List Char
deriving DecidableEq

/-- `Header` (src/tools/mapper.py lines 143-220). -/
structure Header where
  valid : Bool
  header : List Char
  source : Option Identifier
  names : List (List Char)
  identifiers : List Identifier
deriving DecidableEq

/-- The state of a `Map` instance (src/tools/mapper.py lines 229-235).
`map` is the insertion-ordered dict `header_name → Header`; `source` is
`Union[None, Source]` (`Option.none` models Python `None`, `some Source.none`
models the enum member `Source.none` the constructor starts with). -/
structure MapState where
  map : List (List Char × Header)
  source : Option Source
  unresolved : List Identifier
  dangled : List Identifier
deriving DecidableEq

/-- The slice of a Reader record used by `Map.append`:
`item.data_id.source`, `item.data_id.identifier` and `item.names`.
Modelled from the spec: the `tools.reader` module itself is not under src/;
spec §6 describes its output as an iterable collection of Records all sharing
one `Source`, and the collection class in src
(`AbstractCollection`/`Reader`, src/tools/viewer/reader.py line 733) keys the
records by `data_id.identifier`, so a batch's identifier strings are pairwise
distinct — stated as a hypothesis where a theorem needs it. -/
structure RecordM where
  source : Source
  identifier : List Char
  names : List (List Char)
deriving DecidableEq

/-- Outcome of a Python `Map` method call: normal return, or a raised
`ValueError`/`KeyError`.  A raised error propagates to the caller while the
`Map` object keeps whatever mutations already happened, so every constructor
carries the state of the object after the call. -/
inductive PyOutcome (α : Type) where
  | ok (state : α)
  | valueError (msg : String) (state : α)
  | keyError (state : α)
deriving DecidableEq

/-- Python `str.lower()` restricted to its ASCII letter action (all names in
the repository's data are ASCII). -/
def lowerChars (s : List Char) : List Char := s.map Char.toLower

/-- Python dict assignment `d[k] = v` on an insertion-ordered association
list: overwrite in place if the key exists, else append. -/
def assocSet (l : List (List Char × List Char)) (k v : List Char) :
    List (List Char × List Char) :=
  if l.any (fun p => p.1 = k) then
    l.map (fun p => if p.1 = k then (k, v) else p)
  else
    l ++ [(k, v)]

/-- Python dict lookup `d[k]` (as an `Option`). -/
def assocGet? (l : List (List Char × List Char)) (k : List Char) : Option (List Char) :=
  (l.find? (fun p => p.1 = k)).map (fun p => p.2)

/-- The inner loop of the lookup-building phase of `Map.append`
(src/tools/mapper.py lines 350-351): `name_to_header[name.lower()] = header`
for each name of one header. -/
def insertNames (k : List Char) : List (List Char) → List (List Char × List Char) →
    List (List Char × List Char)
  | [], acc => acc
  | n :: ns, acc => insertNames k ns (assocSet acc (lowerChars n) k)

/-- The `name_to_header` dictionary built by `Map.append`
(src/tools/mapper.py lines 346-351), iterating headers in map order. -/
def buildNameToHeader : List (List Char × Header) → List (List Char × List Char) →
    List (List Char × List Char)
  | [], acc => acc
  | (k, h) :: rest, acc => buildNameToHeader rest (insertNames k h.names acc)

/-- Python `set.add` on a duplicate-free list kept in first-insertion order. -/
def setAdd (l : List Identifier) (i : Identifier) : List Identifier :=
  if i ∈ l then l else l ++ [i]

/-- The inner loop collecting one header's identifiers of the batch source
into `map_identifiers` (src/tools/mapper.py lines 353-355). -/
def collectIdentifiers (src : Source) : List Identifier → List Identifier → List Identifier
  | [], acc => acc
  | i :: rest, acc =>
    collectIdentifiers src rest (if i.source = src then setAdd acc i else acc)

/-- The `map_identifiers` set built by `Map.append`
(src/tools/mapper.py lines 347-355). -/
def buildMapIdentifiers (src : Source) : List (List Char × Header) → List Identifier →
    List Identifier
  | [], acc => acc
  | (_, h) :: rest, acc => buildMapIdentifiers src rest (collectIdentifiers src h.identifiers acc)

/-- The `for name in item.names` scan of `Map.append`
(src/tools/mapper.py lines 372-382): the first name whose lowercase form is a
key of `name_to_header` wins and the scan stops. -/
def findName (n2h : List (List Char × List Char)) : List (List Char) → Option (List Char)
  | [] => Option.none
  | n :: ns =>
    match assocGet? n2h (lowerChars n) with
    | some k => some k
    | Option.none => findName n2h ns

/-- `self.map[header].identifiers.append(identifier)`
(src/tools/mapper.py line 381): in-place mutation of the header stored under
key `k`. -/
def appendToHeader (m : List (List Char × Header)) (k : List Char) (i : Identifier) :
    List (List Char × Header) :=
  m.map (fun p => if p.1 = k then (p.1, { p.2 with identifiers := p.2.identifiers ++ [i] }) else p)

/-- The per-record body of the resolution loop of `Map.append`
(src/tools/mapper.py lines 363-385), after the source check: skip an
already-mapped identifier, else link it to the first name match, else append
it to `unresolved`. -/
def processRecord (src : Source) (n2h : List (List Char × List Char))
    (mapIds : List Identifier) (st : MapState) (r : RecordM) : MapState :=
  let i : Identifier := ⟨src, r.identifier⟩
  if i ∈ mapIds then st
  else
    match findName n2h r.names with
    | some k => { st with map := appendToHeader st.map k i }
    | Option.none => { st with unresolved := st.unresolved ++ [i] }

/-- Result of the resolution loop: the (possibly mutated) map state, the
`data_identifiers` set, and whether the mixed-source `ValueError` was
raised. -/
structure LoopResult where
  state : MapState
  dataIds : List Identifier
  raised : Bool
deriving DecidableEq

/-- The `for item in data` loop of `Map.append`
(src/tools/mapper.py lines 358-385).  The source check
(`item.data_id.source != self.source`) precedes everything; a mismatch raises
and abandons the loop with the state reached so far. -/
def appendLoop (src : Source) (n2h : List (List Char × List Char))
    (mapIds : List Identifier) : List RecordM → MapState → List Identifier → LoopResult
  | [], st, ds => ⟨st, ds, false⟩
  | r :: rest, st, ds =>
    if r.source ≠ src then ⟨st, ds, true⟩
    else
      appendLoop src n2h mapIds rest (processRecord src n2h mapIds st r)
        (setAdd ds ⟨src, r.identifier⟩)

/-- `map_identifiers - data_identifiers` (src/tools/mapper.py line 388),
iterated in the first-insertion order of `map_identifiers` (Python set
iteration order is unspecified; no theorem below depends on this order). -/
def setDiffList (a b : List Identifier) : List Identifier :=
  a.filter (fun i => i ∉ b)

/-- The state after the wipe at the top of `Map.append`
(src/tools/mapper.py lines 330-333). -/
def wipeState (st : MapState) : MapState :=
  { st with source := Option.none, unresolved := [], dangled := [] }

/-- `Map.append` (src/tools/mapper.py lines 324-390).  Notes tied to the
source: the wipe happens before the empty-input check; `if not source` is
always false for an `Enum` member, so only the `source == Source.none`
comparison is effective; the lookup structures are built once, before the
loop; `dangled` is filled only on the non-raising path. -/
def mapAppend (st : MapState) (data : List RecordM) : PyOutcome MapState :=
  let st0 := wipeState st
  match data with
  | [] => PyOutcome.ok st0
  | r0 :: _ =>
    if r0.source = Source.none then
      PyOutcome.valueError "no spectra source specified" st0
    else
      let src := r0.source
      let st1 := { st0 with source := some src }
      let n2h := buildNameToHeader st1.map []
      let mapIds := buildMapIdentifiers src st1.map []
      let res := appendLoop src n2h mapIds data st1 []
      if res.raised then
        PyOutcome.valueError "all data's spectra must be of identical source" res.state
      else
        PyOutcome.ok { res.state with dangled := setDiffList mapIds res.dataIds }

/-- `Map.delete` (src/tools/mapper.py lines 416-440).  `self.map[header]`
raises `KeyError` when the header is absent; otherwise all identifiers equal
to `identifier` are removed, and only if something was removed: the header's
`source` is cleared when it equals the identifier, and the header entry is
deleted when its identifier list became empty. -/
def deleteFilterIds (ids : List Identifier) (i : Identifier) : List Identifier :=
  ids.filter (fun x => ¬ x = i)

/-- The header after `Map.delete`'s removal loop and source adjustment
(src/tools/mapper.py lines 425-436): all identifiers equal to `i` removed,
`source` cleared when it designated `i`. -/
def deleteUpdatedHeader (e : Header) (i : Identifier) : Header :=
  { e with identifiers := deleteFilterIds e.identifiers i,
           source := if e.source = some i then Option.none else e.source }

def mapDelete (st : MapState) (h : List Char) (i : Identifier) : PyOutcome MapState :=
  match st.map.find? (fun p => p.1 = h) with
  | Option.none => PyOutcome.keyError st
  | some entry =>
    if ¬ i ∈ entry.2.identifiers then
      PyOutcome.ok st
    else if deleteFilterIds entry.2.identifiers i = [] then
      PyOutcome.ok { st with map := st.map.filter (fun p => ¬ p.1 = h) }
    else
      PyOutcome.ok { st with map := st.map.map (fun p => if p.1 = h then (p.1, deleteUpdatedHeader p.2 i) else p) }

/-- The resolution loop as a fold (its no-raise normal form). -/
def procFold (src : Source) (n2h : List (List Char × List Char))
    (mapIds : List Identifier) (l : List RecordM) (st : MapState) : MapState :=
  l.foldl (processRecord src n2h mapIds) st

/-- The `data_identifiers` accumulation as a fold. -/
def idsFold (src : Source) (l : List RecordM) (ds : List Identifier) : List Identifier :=
  l.foldl (fun acc r => setAdd acc ⟨src, r.identifier⟩) ds

/-- C4 (amended): `Map.append` on an empty collection returns without touching
the header map, but it is not a complete no-op — the wipe at the top of the
method has already reset `source` to `None` and cleared `unresolved` and
`dangled`. -/
theorem mapAppend_empty_wipes_temporaries (st : MapState) :
    mapAppend st [] = PyOutcome.ok { st with source := Option.none, unresolved := [], dangled := [] } :=
  rfl

/-- A map state carrying results of a previous `append` call. -/
def exSt4 : MapState :=
  ⟨[], some Source.bd, [⟨Source.bd, "X".toList⟩], [⟨Source.bd, "Y".toList⟩]⟩

/-- C4 counterexample: on a map whose `unresolved`/`dangled` still hold the
previous `append` results, `append([])` does change the map's fields — the
call is not a no-op as claimed. -/
theorem mapAppend_empty_not_noop :
    mapAppend exSt4 [] ≠ PyOutcome.ok exSt4 := by
  decide

/-- A header "FOO" carrying the name "Foo", before any batch is appended. -/
def exHeaderFoo : Header := ⟨true, "FOO".toList, Option.none, ["Foo".toList], []⟩

/-- A map containing only `exHeaderFoo`. -/
def exSt3 : MapState := ⟨[("FOO".toList, exHeaderFoo)], some Source.none, [], []⟩

/-- First record of the mixed-source batch: links to "FOO" by name. -/
def exR3a : RecordM := ⟨Source.bd, "a".toList, ["foo".toList]⟩

/-- Second record of the mixed-source batch: different source, triggers the
`ValueError`. -/
def exR3b : RecordM := ⟨Source.fpbase, "b".toList, []⟩

/-- The state the mixed-source `append` leaves behind: the first record's
identifier is already linked into "FOO". -/
def exSt3' : MapState :=
  ⟨[("FOO".toList, { exHeaderFoo with identifiers := [⟨Source.bd, "a".toList⟩] })],
   some Source.bd, [], []⟩

/-- C3 counterexample: a mixed-source batch makes `Map.append` raise the
`ValueError`, but the map is left mutated — the first record was already
linked into header "FOO", so the state differs from the pre-call state. -/
theorem mapAppend_mixed_source_not_unchanged :
    mapAppend exSt3 (exR3a :: [exR3b]) =
      PyOutcome.valueError "all data's spectra must be of identical source" exSt3' ∧
    exSt3'.map ≠ exSt3.map := by
  exact ⟨by decide, by decide⟩

/-- A map whose header "A" holds a single identifier. -/
def exSt5 : MapState :=
  ⟨[("A".toList, ⟨true, "A".toList, Option.none, [], [⟨Source.bd, "x".toList⟩]⟩)],
   some Source.none, [], []⟩

/-- `exSt5` after deleting that single identifier: the emptied header was
removed from the map. -/
def exSt5' : MapState := ⟨[], some Source.none, [], []⟩

/-- C5 counterexample: deleting a header's last identifier removes the header;
repeating the same `delete` call then raises `KeyError` (the `self.map[header]`
lookup fails), so the second call is not the claimed safe no-op. -/
theorem mapDelete_twice_raises_after_header_removal :
    mapDelete exSt5 "A".toList ⟨Source.bd, "x".toList⟩ = PyOutcome.ok exSt5' ∧
    mapDelete exSt5' "A".toList ⟨Source.bd, "x".toList⟩ = PyOutcome.keyError exSt5' := by
  exact ⟨by decide, by decide⟩

lemma appendLoop_of_mixed (src : Source) (n2h : List (List Char × List Char))
    (mapIds : List Identifier) (l : List RecordM) (st : MapState) (ds : List Identifier)
    (hmix : ∃ r ∈ l, r.source ≠ src) :
    appendLoop src n2h mapIds l st ds =
      ⟨procFold src n2h mapIds (l.takeWhile fun r => decide (r.source = src)) st,
       idsFold src (l.takeWhile fun r => decide (r.source = src)) ds,
       true⟩ := by
  induction l generalizing st ds with
  | nil =>
    rcases hmix with ⟨r, hr, _⟩
    cases hr
  | cons r rest ih =>
    by_cases h : r.source = src
    · have hmix' : ∃ r' ∈ rest, r'.source ≠ src := by
        rcases hmix with ⟨r', hr', hne⟩
        rcases List.mem_cons.1 hr' with rfl | hr'
        · exact absurd h hne
        · exact ⟨r', hr', hne⟩
      simp only [appendLoop, h, ne_eq, not_true_eq_false, if_false,
        ih _ _ hmix', List.takeWhile_cons, decide_eq_true_eq, if_true, procFold, idsFold,
        List.foldl_cons]
    · simp only [appendLoop, h, ne_eq, not_false_eq_true, if_true, List.takeWhile_cons]
      simp [h, procFold, idsFold]

/-- C3 (amended): a batch whose records do not all share the first record's
source makes `Map.append` raise the `ValueError`, but the map is **not**
restored: `source`/`unresolved`/`dangled` are reset at entry and every record
before the first offending one has been fully processed into the map. -/
theorem mapAppend_mixed_source_raises (st : MapState) (r0 : RecordM) (rest : List RecordM)
    (h0 : r0.source ≠ Source.none)
    (hmix : ∃ r ∈ r0 :: rest, r.source ≠ r0.source) :
    mapAppend st (r0 :: rest) =
      PyOutcome.valueError "all data's spectra must be of identical source"
        (procFold r0.source (buildNameToHeader st.map []) (buildMapIdentifiers r0.source st.map [])
          ((r0 :: rest).takeWhile fun r => decide (r.source = r0.source))
          { st with source := some r0.source, unresolved := [], dangled := [] }) := by
  simp only [mapAppend, wipeState]
  rw [if_neg h0]
  rw [appendLoop_of_mixed _ _ _ _ _ _ hmix]
  rfl

/-- C3 witness: the amended theorem applied to the concrete mixed-source
batch `[exR3a, exR3b]` on the one-header map `exSt3`. -/
theorem mapAppend_mixed_source_raises_witness :
    exR3a.source ≠ Source.none ∧
    (exR3b ∈ exR3a :: [exR3b] ∧ exR3b.source ≠ exR3a.source) ∧
    mapAppend exSt3 (exR3a :: [exR3b]) =
      PyOutcome.valueError "all data's spectra must be of identical source"
        (procFold exR3a.source (buildNameToHeader exSt3.map [])
          (buildMapIdentifiers exR3a.source exSt3.map [])
          ((exR3a :: [exR3b]).takeWhile fun r => decide (r.source = exR3a.source))
          { exSt3 with source := some exR3a.source, unresolved := [], dangled := [] }) := by
  refine ⟨by decide, ⟨by decide, by decide⟩, ?_⟩
  exact mapAppend_mixed_source_raises exSt3 exR3a [exR3b] (by decide)
    ⟨exR3b, by decide, by decide⟩

lemma find?_key_map_update (m : List (List Char × Header)) (h : List Char)
    (f : Header → Header) :
    (m.map (fun p => if p.1 = h then (p.1, f p.2) else p)).find? (fun p => p.1 = h) =
      (m.find? (fun p => p.1 = h)).map (fun p => (p.1, f p.2)) := by
  induction m with
  | nil => rfl
  | cons q rest ih =>
    by_cases hq : q.1 = h
    · simp [List.find?_cons, hq]
    · simp [List.find?_cons, hq, ih]

lemma mapDelete_of_find?_none (st : MapState) (h : List Char) (i : Identifier)
    (hf : st.map.find? (fun p => p.1 = h) = Option.none) :
    mapDelete st h i = PyOutcome.keyError st := by
  simp [mapDelete, hf]

lemma mapDelete_of_not_mem (st : MapState) (h : List Char) (i : Identifier)
    (e : List Char × Header) (hf : st.map.find? (fun p => p.1 = h) = some e)
    (hni : ¬ i ∈ e.2.identifiers) :
    mapDelete st h i = PyOutcome.ok st := by
  simp [mapDelete, hf, hni]

/-- C5 (amended): after a `delete(header, id)` call that returned normally, a
repeated `delete(header, id)` is a safe no-op exactly when the header is
still present in the map; if the first call removed the header (its last
identifier was deleted), the second call raises `KeyError` instead. -/
theorem mapDelete_second_call (st : MapState) (h : List Char) (i : Identifier) (st' : MapState)
    (h1 : mapDelete st h i = PyOutcome.ok st') :
    (st'.map.any (fun p => p.1 = h) = true → mapDelete st' h i = PyOutcome.ok st') ∧
    (st'.map.any (fun p => p.1 = h) = false → mapDelete st' h i = PyOutcome.keyError st') := by
  cases hf : st.map.find? (fun p => p.1 = h) with
  | none =>
    rw [mapDelete_of_find?_none st h i hf] at h1
    simp at h1
  | some entry =>
    have hkey : entry.1 = h := by
      have := List.find?_some hf
      simpa using this
    have hmem0 : entry ∈ st.map := List.mem_of_find?_eq_some hf
    by_cases hc : i ∈ entry.2.identifiers
    · by_cases hnil : deleteFilterIds entry.2.identifiers i = []
      · have heval : mapDelete st h i =
            PyOutcome.ok { st with map := st.map.filter (fun p => ¬ p.1 = h) } := by
          simp [mapDelete, hf, hc, hnil]
        rw [heval] at h1
        have hst' : st' = { st with map := st.map.filter (fun p => ¬ p.1 = h) } := by
          injection h1 with h2
          exact h2.symm
        have hnone : st'.map.find? (fun p => p.1 = h) = Option.none := by
          rw [hst']
          rw [List.find?_eq_none]
          intro x hx
          have := (List.mem_filter.1 hx).2
          simpa using this
        constructor
        · intro hany
          exfalso
          rcases List.any_eq_true.1 hany with ⟨x, hx, hpx⟩
          have hno := List.find?_eq_none.1 hnone x hx
          exact hno hpx
        · intro _
          exact mapDelete_of_find?_none st' h i hnone
      · have heval : mapDelete st h i =
            PyOutcome.ok { st with map := st.map.map (fun p => if p.1 = h then (p.1, deleteUpdatedHeader p.2 i) else p) } := by
          simp [mapDelete, hf, hc, hnil]
        rw [heval] at h1
        have hst' : st' =
            { st with map := st.map.map (fun p => if p.1 = h then (p.1, deleteUpdatedHeader p.2 i) else p) } := by
          injection h1 with h2
          exact h2.symm
        have hfind : st'.map.find? (fun p => p.1 = h) =
            some (entry.1, deleteUpdatedHeader entry.2 i) := by
          rw [hst']
          rw [show (fun p : List Char × Header => if p.1 = h then (p.1, deleteUpdatedHeader p.2 i) else p) = (fun p : List Char × Header => if p.1 = h then (p.1, (fun e => deleteUpdatedHeader e i) p.2) else p) from rfl]
          rw [find?_key_map_update st.map h (fun e => deleteUpdatedHeader e i), hf]
          rfl
        have hni : ¬ i ∈ (entry.1, deleteUpdatedHeader entry.2 i).2.identifiers := by
          simp [deleteUpdatedHeader, deleteFilterIds, List.mem_filter]
        constructor
        · intro _
          exact mapDelete_of_not_mem st' h i _ hfind hni
        · intro hany
          exfalso
          have hx : (entry.1, deleteUpdatedHeader entry.2 i) ∈ st'.map :=
            List.mem_of_find?_eq_some hfind
          have hanyT : st'.map.any (fun p => p.1 = h) = true :=
            List.any_eq_true.2 ⟨_, hx, by simpa using hkey⟩
          rw [hany] at hanyT
          cases hanyT
    · have heval : mapDelete st h i = PyOutcome.ok st := mapDelete_of_not_mem st h i entry hf hc
      rw [heval] at h1
      have hst : st = st' := by
        injection h1
      subst hst
      constructor
      · intro _
        exact mapDelete_of_not_mem st h i entry hf hc
      · intro hany
        exfalso
        have hanyT : st.map.any (fun p => p.1 = h) = true :=
          List.any_eq_true.2 ⟨entry, hmem0, by simpa using hkey⟩
        rw [hany] at hanyT
        cases hanyT

/-- `i` occurs in some header's identifier list of the map `m`. -/
def inMap (m : List (List Char × Header)) (i : Identifier) : Prop :=
  ∃ kh ∈ m, i ∈ kh.2.identifiers

lemma mem_setAdd {l : List Identifier} {i j : Identifier} :
    i ∈ setAdd l j ↔ i ∈ l ∨ i = j := by
  by_cases hj : j ∈ l
  · simp only [setAdd, if_pos hj]
    constructor
    · exact Or.inl
    · rintro (h | rfl)
      · exact h
      · exact hj
  · simp [setAdd, hj]

lemma mem_collectIdentifiers (src : Source) (ids acc : List Identifier) (i : Identifier) :
    i ∈ collectIdentifiers src ids acc ↔ i ∈ acc ∨ (i.source = src ∧ i ∈ ids) := by
  induction ids generalizing acc with
  | nil => simp [collectIdentifiers]
  | cons j rest ih =>
    simp only [collectIdentifiers]
    by_cases hs : j.source = src
    · rw [if_pos hs, ih]
      constructor
      · rintro (hsa | ⟨h1, h2⟩)
        · rcases mem_setAdd.1 hsa with h | rfl
          · exact Or.inl h
          · exact Or.inr ⟨hs, List.mem_cons_self _ _⟩
        · exact Or.inr ⟨h1, List.mem_cons_of_mem _ h2⟩
      · rintro (h | ⟨h1, h2⟩)
        · exact Or.inl (mem_setAdd.2 (Or.inl h))
        · rcases List.mem_cons.1 h2 with rfl | h2
          · exact Or.inl (mem_setAdd.2 (Or.inr rfl))
          · exact Or.inr ⟨h1, h2⟩
    · rw [if_neg hs, ih]
      constructor
      · rintro (h | ⟨h1, h2⟩)
        · exact Or.inl h
        · exact Or.inr ⟨h1, List.mem_cons_of_mem _ h2⟩
      · rintro (h | ⟨h1, h2⟩)
        · exact Or.inl h
        · rcases List.mem_cons.1 h2 with rfl | h2
          · exact absurd h1 hs
          · exact Or.inr ⟨h1, h2⟩

lemma mem_buildMapIdentifiers (src : Source) (m : List (List Char × Header))
    (acc : List Identifier) (i : Identifier) :
    i ∈ buildMapIdentifiers src m acc ↔ i ∈ acc ∨ (i.source = src ∧ inMap m i) := by
  induction m generalizing acc with
  | nil =>
    constructor
    · exact fun h => Or.inl h
    · rintro (h | ⟨_, kh, hkh, _⟩)
      · exact h
      · cases hkh
  | cons kh rest ih =>
    obtain ⟨k, hd⟩ := kh
    simp only [buildMapIdentifiers]
    rw [ih, mem_collectIdentifiers]
    constructor
    · rintro ((h | ⟨h1, h2⟩) | ⟨h1, q, hq, h3⟩)
      · exact Or.inl h
      · exact Or.inr ⟨h1, ⟨(k, hd), List.mem_cons_self _ _, h2⟩⟩
      · exact Or.inr ⟨h1, ⟨q, List.mem_cons_of_mem _ hq, h3⟩⟩
    · rintro (h | ⟨h1, q, hq, h3⟩)
      · exact Or.inl (Or.inl h)
      · rcases List.mem_cons.1 hq with rfl | hq
        · exact Or.inl (Or.inr ⟨h1, h3⟩)
        · exact Or.inr ⟨h1, q, hq, h3⟩

lemma mem_assocSet {l : List (List Char × List Char)} {k v : List Char}
    {p : List Char × List Char} (hp : p ∈ assocSet l k v) : p ∈ l ∨ p.2 = v := by
  unfold assocSet at hp
  split at hp
  · rcases List.mem_map.1 hp with ⟨q, hq, hfq⟩
    by_cases h : q.1 = k
    · right
      rw [← hfq]
      simp [h]
    · left
      rw [← hfq]
      simp only [if_neg h]
      exact hq
  · rcases List.mem_append.1 hp with h | h
    · exact Or.inl h
    · right
      simp at h
      rw [h]

lemma mem_insertNames {k : List Char} {ns : List (List Char)}
    {acc : List (List Char × List Char)} {p : List Char × List Char}
    (h : p ∈ insertNames k ns acc) : p ∈ acc ∨ p.2 = k := by
  induction ns generalizing acc with
  | nil => exact Or.inl h
  | cons n rest ih =>
    rcases ih h with h' | h'
    · exact mem_assocSet h'
    · exact Or.inr h'

lemma mem_buildNameToHeader {m : List (List Char × Header)}
    {acc : List (List Char × List Char)} {p : List Char × List Char}
    (h : p ∈ buildNameToHeader m acc) : p ∈ acc ∨ ∃ kh ∈ m, p.2 = kh.1 := by
  induction m generalizing acc with
  | nil => exact Or.inl h
  | cons kh rest ih =>
    obtain ⟨k, hd⟩ := kh
    rcases ih h with h' | ⟨q, hq, hpq⟩
    · rcases mem_insertNames h' with h'' | h''
      · exact Or.inl h''
      · exact Or.inr ⟨(k, hd), List.mem_cons_self _ _, h''⟩
    · exact Or.inr ⟨q, List.mem_cons_of_mem _ hq, hpq⟩

lemma assocGet?_mem {l : List (List Char × List Char)} {k v : List Char}
    (h : assocGet? l k = some v) : ∃ p ∈ l, p.2 = v := by
  unfold assocGet? at h
  cases hf : l.find? (fun p => p.1 = k) with
  | none =>
    rw [hf] at h
    cases h
  | some q =>
    rw [hf] at h
    simp at h
    exact ⟨q, List.mem_of_find?_eq_some hf, h⟩

lemma findName_exists_entry {m : List (List Char × Header)} {ns : List (List Char)}
    {k : List Char} (h : findName (buildNameToHeader m []) ns = some k) :
    ∃ kh ∈ m, kh.1 = k := by
  induction ns with
  | nil => exact absurd h (by simp [findName])
  | cons n rest ih =>
    cases hz : assocGet? (buildNameToHeader m []) (lowerChars n) with
    | some q =>
      simp only [findName, hz] at h
      have hqk : q = k := Option.some.inj h
      rcases assocGet?_mem hz with ⟨p, hp, hpk⟩
      rcases mem_buildNameToHeader hp with hfalse | ⟨kh, hkh, hk2⟩
      · cases hfalse
      · exact ⟨kh, hkh, by rw [← hk2, hpk, hqk]⟩
    | none =>
      simp only [findName, hz] at h
      exact ih h

def keysOf (m : List (List Char × Header)) : List (List Char) := m.map (fun p => p.1)

lemma keysOf_appendToHeader (m : List (List Char × Header)) (k : List Char) (i : Identifier) :
    keysOf (appendToHeader m k i) = keysOf m := by
  induction m with
  | nil => rfl
  | cons p rest ih =>
    simp only [appendToHeader, List.map_cons, keysOf] at *
    by_cases hp : p.1 = k
    · simp only [if_pos hp]
      rw [ih]
    · simp only [if_neg hp]
      rw [ih]

lemma inMap_appendToHeader_mono {m : List (List Char × Header)} {k : List Char}
    {i j : Identifier} (h : inMap m j) : inMap (appendToHeader m k i) j := by
  rcases h with ⟨kh, hkh, hj⟩
  refine ⟨(fun p => if p.1 = k then (p.1, { p.2 with identifiers := p.2.identifiers ++ [i] }) else p) kh,
    List.mem_map_of_mem _ hkh, ?_⟩
  by_cases hk : kh.1 = k
  · simp only [if_pos hk]
    exact List.mem_append_left _ hj
  · simp only [if_neg hk]
    exact hj

lemma inMap_appendToHeader_self {m : List (List Char × Header)} {k : List Char}
    {i : Identifier} (hk : ∃ kh ∈ m, kh.1 = k) : inMap (appendToHeader m k i) i := by
  rcases hk with ⟨kh, hkh, hkk⟩
  refine ⟨(kh.1, { kh.2 with identifiers := kh.2.identifiers ++ [i] }), ?_, ?_⟩
  · have heq : (fun p => if p.1 = k then (p.1, { p.2 with identifiers := p.2.identifiers ++ [i] }) else p) kh =
        (kh.1, { kh.2 with identifiers := kh.2.identifiers ++ [i] }) := by
      simp [hkk]
    rw [← heq]
    exact List.mem_map_of_mem _ hkh
  · simp

lemma inMap_appendToHeader_inv {m : List (List Char × Header)} {k : List Char}
    {i j : Identifier} (h : inMap (appendToHeader m k i) j) : inMap m j ∨ j = i := by
  rcases h with ⟨kh, hkh, hj⟩
  rcases List.mem_map.1 hkh with ⟨q, hq, hfq⟩
  by_cases hk : q.1 = k
  · rw [← hfq] at hj
    simp only [if_pos hk] at hj
    rcases List.mem_append.1 hj with h' | h'
    · exact Or.inl ⟨q, hq, h'⟩
    · simp at h'
      exact Or.inr h'
  · rw [← hfq] at hj
    simp only [if_neg hk] at hj
    exact Or.inl ⟨q, hq, hj⟩

lemma keysOf_processRecord (src : Source) (n2h : List (List Char × List Char))
    (mapIds : List Identifier) (st : MapState) (r : RecordM) :
    keysOf (processRecord src n2h mapIds st r).map = keysOf st.map := by
  by_cases hm : (⟨src, r.identifier⟩ : Identifier) ∈ mapIds
  · simp [processRecord, hm]
  · cases hfn : findName n2h r.names with
    | some k => simp [processRecord, hm, hfn, keysOf_appendToHeader]
    | none => simp [processRecord, hm, hfn]

lemma processRecord_unresolved_grows (src : Source) (n2h : List (List Char × List Char))
    (mapIds : List Identifier) (st : MapState) (r : RecordM) :
    ∃ t, (processRecord src n2h mapIds st r).unresolved = st.unresolved ++ t := by
  by_cases hm : (⟨src, r.identifier⟩ : Identifier) ∈ mapIds
  · exact ⟨[], by simp [processRecord, hm]⟩
  · cases hfn : findName n2h r.names with
    | some k => exact ⟨[], by simp [processRecord, hm, hfn]⟩
    | none => exact ⟨[⟨src, r.identifier⟩], by simp [processRecord, hm, hfn]⟩

lemma inMap_processRecord_mono {src : Source} {n2h : List (List Char × List Char)}
    {mapIds : List Identifier} {st : MapState} {r : RecordM} {j : Identifier}
    (h : inMap st.map j) : inMap (processRecord src n2h mapIds st r).map j := by
  by_cases hm : (⟨src, r.identifier⟩ : Identifier) ∈ mapIds
  · simpa [processRecord, hm] using h
  · cases hfn : findName n2h r.names with
    | some k =>
      simp only [processRecord, hm, if_neg, hfn]
      simpa using inMap_appendToHeader_mono (k := k) (i := ⟨src, r.identifier⟩) h
    | none => simpa [processRecord, hm, hfn] using h

lemma inMap_processRecord_inv {src : Source} {n2h : List (List Char × List Char)}
    {mapIds : List Identifier} {st : MapState} {r : RecordM} {j : Identifier}
    (h : inMap (processRecord src n2h mapIds st r).map j) :
    inMap st.map j ∨ j = ⟨src, r.identifier⟩ := by
  by_cases hm : (⟨src, r.identifier⟩ : Identifier) ∈ mapIds
  · rw [show processRecord src n2h mapIds st r = st from by simp [processRecord, hm]] at h
    exact Or.inl h
  · cases hfn : findName n2h r.names with
    | some k =>
      rw [show (processRecord src n2h mapIds st r).map = appendToHeader st.map k ⟨src, r.identifier⟩ from by simp [processRecord, hm, hfn]] at h
      exact inMap_appendToHeader_inv h
    | none =>
      rw [show (processRecord src n2h mapIds st r).map = st.map from by simp [processRecord, hm, hfn]] at h
      exact Or.inl h

lemma procFold_unresolved_grows (src : Source) (n2h : List (List Char × List Char))
    (mapIds : List Identifier) (l : List RecordM) (st : MapState) :
    ∃ t, (procFold src n2h mapIds l st).unresolved = st.unresolved ++ t := by
  induction l generalizing st with
  | nil => exact ⟨[], (List.append_nil _).symm⟩
  | cons r rest ih =>
    rcases processRecord_unresolved_grows src n2h mapIds st r with ⟨t1, h1⟩
    rcases ih (processRecord src n2h mapIds st r) with ⟨t2, h2⟩
    refine ⟨t1 ++ t2, ?_⟩
    show (procFold src n2h mapIds rest (processRecord src n2h mapIds st r)).unresolved = _
    rw [h2, h1, List.append_assoc]

lemma procFold_keys (src : Source) (n2h : List (List Char × List Char))
    (mapIds : List Identifier) (l : List RecordM) (st : MapState) :
    keysOf (procFold src n2h mapIds l st).map = keysOf st.map := by
  induction l generalizing st with
  | nil => rfl
  | cons r rest ih =>
    show keysOf (procFold src n2h mapIds rest (processRecord src n2h mapIds st r)).map = _
    rw [ih, keysOf_processRecord]

lemma inMap_procFold_mono {src : Source} {n2h : List (List Char × List Char)}
    {mapIds : List Identifier} {l : List RecordM} {st : MapState} {j : Identifier}
    (h : inMap st.map j) : inMap (procFold src n2h mapIds l st).map j := by
  induction l generalizing st with
  | nil => exact h
  | cons r rest ih =>
    show inMap (procFold src n2h mapIds rest (processRecord src n2h mapIds st r)).map j
    exact ih (inMap_processRecord_mono h)

lemma inMap_procFold_inv {src : Source} {n2h : List (List Char × List Char)}
    {mapIds : List Identifier} {l : List RecordM} {st : MapState} {j : Identifier}
    (h : inMap (procFold src n2h mapIds l st).map j) :
    inMap st.map j ∨ ∃ r ∈ l, j = ⟨src, r.identifier⟩ := by
  induction l generalizing st with
  | nil => exact Or.inl h
  | cons r rest ih =>
    have h' : inMap (procFold src n2h mapIds rest (processRecord src n2h mapIds st r)).map j := h
    rcases ih h' with h'' | ⟨r', hr', rfl⟩
    · rcases inMap_processRecord_inv h'' with h3 | h3
      · exact Or.inl h3
      · exact Or.inr ⟨r, List.mem_cons_self _ _, h3⟩
    · exact Or.inr ⟨r', List.mem_cons_of_mem _ hr', rfl⟩

lemma mem_idsFold (src : Source) (l : List RecordM) (ds : List Identifier) (i : Identifier) :
    i ∈ idsFold src l ds ↔ i ∈ ds ∨ ∃ r ∈ l, i = ⟨src, r.identifier⟩ := by
  induction l generalizing ds with
  | nil => simp [idsFold]
  | cons r rest ih =>
    show i ∈ idsFold src rest (setAdd ds ⟨src, r.identifier⟩) ↔ _
    rw [ih]
    constructor
    · rintro (hsa | ⟨r', hr', rfl⟩)
      · rcases mem_setAdd.1 hsa with h | rfl
        · exact Or.inl h
        · exact Or.inr ⟨r, List.mem_cons_self _ _, rfl⟩
      · exact Or.inr ⟨r', List.mem_cons_of_mem _ hr', rfl⟩
    · rintro (h | ⟨r', hr', rfl⟩)
      · exact Or.inl (mem_setAdd.2 (Or.inl h))
      · rcases List.mem_cons.1 hr' with rfl | hr'
        · exact Or.inl (mem_setAdd.2 (Or.inr rfl))
        · exact Or.inr ⟨r', hr', rfl⟩

lemma appendLoop_eq_of_same_source (src : Source) (n2h : List (List Char × List Char))
    (mapIds : List Identifier) (l : List RecordM) (st : MapState) (ds : List Identifier)
    (hsrc : ∀ r ∈ l, r.source = src) :
    appendLoop src n2h mapIds l st ds = ⟨procFold src n2h mapIds l st, idsFold src l ds, false⟩ := by
  induction l generalizing st ds with
  | nil => rfl
  | cons r rest ih =>
    have h := hsrc r (List.mem_cons_self _ _)
    simp only [appendLoop, h, ne_eq, not_true_eq_false, if_false]
    rw [ih _ _ (fun r' hr' => hsrc r' (List.mem_cons_of_mem _ hr'))]
    rfl

lemma appendLoop_not_raised (src : Source) (n2h : List (List Char × List Char))
    (mapIds : List Identifier) (l : List RecordM) :
    ∀ st ds, (appendLoop src n2h mapIds l st ds).raised = false → ∀ r ∈ l, r.source = src := by
  induction l with
  | nil =>
    intro st ds _ r hr
    cases hr
  | cons r0 rest ih =>
    intro st ds h r hr
    by_cases h0 : r0.source = src
    · rcases List.mem_cons.1 hr with rfl | hr
      · exact h0
      · rw [show appendLoop src n2h mapIds (r0 :: rest) st ds =
            appendLoop src n2h mapIds rest (processRecord src n2h mapIds st r0)
              (setAdd ds ⟨src, r0.identifier⟩) from by simp [appendLoop, h0]] at h
        exact ih _ _ h r hr
    · rw [show appendLoop src n2h mapIds (r0 :: rest) st ds = ⟨st, ds, true⟩ from by
        simp [appendLoop, h0]] at h
      cases h

lemma procFold_all_skipped (src : Source) (n2h : List (List Char × List Char))
    (mapIds : List Identifier) (l : List RecordM) (st : MapState)
    (h : ∀ r ∈ l, (⟨src, r.identifier⟩ : Identifier) ∈ mapIds) :
    procFold src n2h mapIds l st = st := by
  induction l generalizing st with
  | nil => rfl
  | cons r rest ih =>
    have h0 := h r (List.mem_cons_self _ _)
    show procFold src n2h mapIds rest (processRecord src n2h mapIds st r) = st
    rw [show processRecord src n2h mapIds st r = st from by simp [processRecord, h0]]
    exact ih _ (fun r' hr' => h r' (List.mem_cons_of_mem _ hr'))

lemma procFold_resolved (src : Source) (n2h : List (List Char × List Char))
    (mapIds : List Identifier) (l : List RecordM) :
    ∀ st : MapState,
      (∀ ns k, findName n2h ns = some k → k ∈ keysOf st.map) →
      (procFold src n2h mapIds l st).unresolved = st.unresolved →
      ∀ r ∈ l, (⟨src, r.identifier⟩ : Identifier) ∈ mapIds ∨
        inMap (procFold src n2h mapIds l st).map ⟨src, r.identifier⟩ := by
  induction l with
  | nil =>
    intro st _ _ r hr
    cases hr
  | cons r0 rest ih =>
    intro st hkeys hu r hr
    rcases processRecord_unresolved_grows src n2h mapIds st r0 with ⟨t1, h1⟩
    rcases procFold_unresolved_grows src n2h mapIds rest (processRecord src n2h mapIds st r0) with ⟨t2, h2⟩
    have hfold : procFold src n2h mapIds (r0 :: rest) st =
        procFold src n2h mapIds rest (processRecord src n2h mapIds st r0) := rfl
    rw [hfold] at hu
    have htt : st.unresolved ++ (t1 ++ t2) = st.unresolved := by
      rw [← List.append_assoc, ← h1, ← h2, hu]
    have hnil : t1 ++ t2 = [] := by
      have h' : st.unresolved ++ (t1 ++ t2) = st.unresolved ++ [] := by
        rw [htt, List.append_nil]
      exact List.append_cancel_left h'
    rcases List.append_eq_nil.1 hnil with ⟨ht1, ht2⟩
    have hstep : (processRecord src n2h mapIds st r0).unresolved = st.unresolved := by
      rw [h1, ht1, List.append_nil]
    have hu' : (procFold src n2h mapIds rest (processRecord src n2h mapIds st r0)).unresolved =
        (processRecord src n2h mapIds st r0).unresolved := by
      rw [h2, ht2, List.append_nil]
    have hkeys' : ∀ ns k, findName n2h ns = some k →
        k ∈ keysOf (processRecord src n2h mapIds st r0).map := by
      intro ns k hk
      rw [keysOf_processRecord]
      exact hkeys ns k hk
    rcases List.mem_cons.1 hr with rfl | hr
    · by_cases hm : (⟨src, r.identifier⟩ : Identifier) ∈ mapIds
      · exact Or.inl hm
      · right
        cases hfn : findName n2h r.names with
        | none =>
          exfalso
          have hcontra : (processRecord src n2h mapIds st r).unresolved =
              st.unresolved ++ [⟨src, r.identifier⟩] := by
            simp [processRecord, hm, hfn]
          rw [hcontra] at hstep
          have := congrArg List.length hstep
          simp at this
        | some k =>
          have hstepmap : (processRecord src n2h mapIds st r).map =
              appendToHeader st.map k ⟨src, r.identifier⟩ := by
            simp [processRecord, hm, hfn]
          have hin : inMap (processRecord src n2h mapIds st r).map ⟨src, r.identifier⟩ := by
            rw [hstepmap]
            apply inMap_appendToHeader_self
            have hkm := hkeys r.names k hfn
            rcases List.mem_map.1 hkm with ⟨q, hq, hq1⟩
            exact ⟨q, hq, hq1⟩
          rw [hfold]
          exact inMap_procFold_mono hin
    · rw [hfold]
      exact ih (processRecord src n2h mapIds st r0) hkeys' hu' r hr

/-- Closed form of a successful `Map.append` on a non-empty same-source
batch. -/
lemma mapAppend_ok_form (st : MapState) (r0 : RecordM) (rest : List RecordM)
    (h0 : r0.source ≠ Source.none)
    (hsrc : ∀ r ∈ r0 :: rest, r.source = r0.source) :
    mapAppend st (r0 :: rest) = PyOutcome.ok
      { procFold r0.source (buildNameToHeader st.map []) (buildMapIdentifiers r0.source st.map [])
          (r0 :: rest) { st with source := some r0.source, unresolved := [], dangled := [] } with
        dangled := setDiffList (buildMapIdentifiers r0.source st.map [])
          (idsFold r0.source (r0 :: rest) []) } := by
  simp only [mapAppend, wipeState]
  rw [if_neg h0]
  rw [appendLoop_eq_of_same_source _ _ _ _ _ _ hsrc]
  rfl

/-- Inversion of a successful `Map.append` on a non-empty batch: the batch
was same-source with a real source, and the result is the closed form. -/
lemma mapAppend_ok_inv (st : MapState) (r0 : RecordM) (rest : List RecordM) (st1 : MapState)
    (h1 : mapAppend st (r0 :: rest) = PyOutcome.ok st1) :
    r0.source ≠ Source.none ∧ (∀ r ∈ r0 :: rest, r.source = r0.source) ∧
    st1 = { procFold r0.source (buildNameToHeader st.map []) (buildMapIdentifiers r0.source st.map [])
          (r0 :: rest) { st with source := some r0.source, unresolved := [], dangled := [] } with
        dangled := setDiffList (buildMapIdentifiers r0.source st.map [])
          (idsFold r0.source (r0 :: rest) []) } := by
  by_cases h0 : r0.source = Source.none
  · exfalso
    rw [show mapAppend st (r0 :: rest) =
        PyOutcome.valueError "no spectra source specified" (wipeState st) from by
      simp [mapAppend, h0]] at h1
    cases h1
  · have hsrc : ∀ r ∈ r0 :: rest, r.source = r0.source := by
      cases hraised : (appendLoop r0.source (buildNameToHeader st.map [])
          (buildMapIdentifiers r0.source st.map []) (r0 :: rest)
          { st with source := some r0.source, unresolved := [], dangled := [] } []).raised with
      | false => exact appendLoop_not_raised _ _ _ _ _ _ hraised
      | true =>
        exfalso
        rw [show mapAppend st (r0 :: rest) =
            PyOutcome.valueError "all data's spectra must be of identical source"
              (appendLoop r0.source (buildNameToHeader st.map [])
                (buildMapIdentifiers r0.source st.map []) (r0 :: rest)
                { st with source := some r0.source, unresolved := [], dangled := [] } []).state from by
          simp only [mapAppend, wipeState]
          rw [if_neg h0]
          rw [if_pos hraised]] at h1
        cases h1
    refine ⟨h0, hsrc, ?_⟩
    rw [mapAppend_ok_form st r0 rest h0 hsrc] at h1
    exact (PyOutcome.ok.inj h1).symm

/-- C1 (amended): when an `append(B)` fully linked its batch — it returned
normally with `unresolved == []` and `dangled == []` — a second `append(B)`
also returns with `unresolved == []` and `dangled == []` (every identifier of
the batch is by then mapped for its source, so each record is skipped). -/
theorem mapAppend_again_clean (st : MapState) (r0 : RecordM) (rest : List RecordM)
    (st1 : MapState)
    (h1 : mapAppend st (r0 :: rest) = PyOutcome.ok st1)
    (hu : st1.unresolved = []) (hd : st1.dangled = []) :
    ∃ st2, mapAppend st1 (r0 :: rest) = PyOutcome.ok st2 ∧
      st2.unresolved = [] ∧ st2.dangled = [] := by
  obtain ⟨h0, hsrc, hform⟩ := mapAppend_ok_inv st r0 rest st1 h1
  have hst1map : st1.map =
      (procFold r0.source (buildNameToHeader st.map []) (buildMapIdentifiers r0.source st.map [])
        (r0 :: rest) { st with source := some r0.source, unresolved := [], dangled := [] }).map := by
    rw [hform]
  have hst1unres :
      (procFold r0.source (buildNameToHeader st.map []) (buildMapIdentifiers r0.source st.map [])
        (r0 :: rest) { st with source := some r0.source, unresolved := [], dangled := [] }).unresolved
      = [] := by
    have : st1.unresolved =
        (procFold r0.source (buildNameToHeader st.map []) (buildMapIdentifiers r0.source st.map [])
          (r0 :: rest) { st with source := some r0.source, unresolved := [], dangled := [] }).unresolved := by
      rw [hform]
    rw [← this, hu]
  have hst1dang : setDiffList (buildMapIdentifiers r0.source st.map [])
      (idsFold r0.source (r0 :: rest) []) = [] := by
    have : st1.dangled = setDiffList (buildMapIdentifiers r0.source st.map [])
        (idsFold r0.source (r0 :: rest) []) := by
      rw [hform]
    rw [← this, hd]
  have hkeys1 : ∀ ns k, findName (buildNameToHeader st.map []) ns = some k →
      k ∈ keysOf ({ st with source := some r0.source, unresolved := [], dangled := [] } : MapState).map := by
    intro ns k hk
    rcases findName_exists_entry hk with ⟨kh, hkh, hk1⟩
    exact List.mem_map.2 ⟨kh, hkh, hk1⟩
  have hres := procFold_resolved r0.source (buildNameToHeader st.map [])
    (buildMapIdentifiers r0.source st.map []) (r0 :: rest)
    { st with source := some r0.source, unresolved := [], dangled := [] } hkeys1 hst1unres
  -- every batch identifier is mapped for the source in st1
  have hmem2 : ∀ r ∈ r0 :: rest,
      (⟨r0.source, r.identifier⟩ : Identifier) ∈ buildMapIdentifiers r0.source st1.map [] := by
    intro r hr
    apply (mem_buildMapIdentifiers r0.source st1.map [] _).2
    right
    refine ⟨rfl, ?_⟩
    rcases hres r hr with hm | hin
    · rcases (mem_buildMapIdentifiers r0.source st.map [] _).1 hm with hfalse | ⟨_, hinm⟩
      · cases hfalse
      · rw [hst1map]
        exact inMap_procFold_mono hinm
    · rw [hst1map]
      exact hin
  have happly := mapAppend_ok_form st1 r0 rest h0 hsrc
  refine ⟨_, happly, ?_, ?_⟩
  · -- unresolved of the second call
    rw [procFold_all_skipped _ _ _ _ _ hmem2]
  · -- dangled of the second call
    show setDiffList (buildMapIdentifiers r0.source st1.map [])
      (idsFold r0.source (r0 :: rest) []) = []
    rw [setDiffList, List.filter_eq_nil_iff]
    intro i hi
    simp only [decide_not, Bool.not_eq_true', decide_eq_false_iff_not, not_not]
    rcases (mem_buildMapIdentifiers r0.source st1.map [] _).1 hi with hfalse | ⟨hisrc, hinm⟩
    · cases hfalse
    · rw [hst1map] at hinm
      rcases inMap_procFold_inv hinm with hin0 | ⟨r, hr, rfl⟩
      · -- previously mapped: dangled1 = [] forces it into the batch ids
        have him : i ∈ buildMapIdentifiers r0.source st.map [] :=
          (mem_buildMapIdentifiers r0.source st.map [] _).2 (Or.inr ⟨hisrc, hin0⟩)
        have := List.filter_eq_nil_iff.1 (by rw [← setDiffList]; exact hst1dang) i him
        simp only [decide_not, Bool.not_eq_true', decide_eq_false_iff_not, not_not] at this
        exact this
      · exact (mem_idsFold r0.source (r0 :: rest) [] _).2 (Or.inr ⟨r, hr, rfl⟩)

/-- An empty map (fresh `Map()`). -/
def exSt1 : MapState := ⟨[], some Source.none, [], []⟩

/-- A record whose names match no header. -/
def exR1 : RecordM := ⟨Source.bd, "X".toList, ["foo".toList]⟩

/-- `exSt1` after appending `[exR1]`: the record stays unresolved (it is not
added to the map), so a second identical append reproduces the same state. -/
def exSt1mid : MapState := ⟨[], some Source.bd, [⟨Source.bd, "X".toList⟩], []⟩

/-- C1 counterexample: appending the same one-record batch twice to an empty
map leaves `unresolved` non-empty after the second call — an unresolved
identifier is never added to the map, so re-appending does not link it, and
the claim's `unresolved == []` fails. -/
theorem mapAppend_twice_unresolved_persists :
    mapAppend exSt1 [exR1] = PyOutcome.ok exSt1mid ∧
    mapAppend exSt1mid [exR1] = PyOutcome.ok exSt1mid ∧
    exSt1mid.unresolved ≠ [] := by
  exact ⟨by decide, by decide, by decide⟩

/-- A one-header map whose name "Gfp" will link the witness batch. -/
def wSt1 : MapState :=
  ⟨[("GFP".toList, ⟨true, "GFP".toList, Option.none, ["Gfp".toList], []⟩)],
   some Source.none, [], []⟩

/-- The witness record: name "gfp" matches header "GFP" case-insensitively. -/
def wR1 : RecordM := ⟨Source.bd, "g1".toList, ["gfp".toList]⟩

/-- `wSt1` after the first append: the identifier was linked into "GFP". -/
def wSt1' : MapState :=
  ⟨[("GFP".toList, ⟨true, "GFP".toList, Option.none, ["Gfp".toList], [⟨Source.bd, "g1".toList⟩]⟩)],
   some Source.bd, [], []⟩

/-- C1 witness: the amended theorem applied to a concrete batch that the
first append fully links. -/
theorem mapAppend_again_clean_witness :
    mapAppend wSt1 (wR1 :: []) = PyOutcome.ok wSt1' ∧
    wSt1'.unresolved = [] ∧ wSt1'.dangled = [] ∧
    (∃ st2, mapAppend wSt1' (wR1 :: []) = PyOutcome.ok st2 ∧
      st2.unresolved = [] ∧ st2.dangled = []) := by
  refine ⟨by decide, by decide, by decide, ?_⟩
  exact mapAppend_again_clean wSt1 wR1 [] wSt1' (by decide) (by decide) (by decide)

/-- A map whose header "A" holds two identifiers, so deleting one keeps the
header alive. -/
def wSt5 : MapState :=
  ⟨[("A".toList, ⟨true, "A".toList, Option.none, [],
      [⟨Source.bd, "x".toList⟩, ⟨Source.bd, "y".toList⟩]⟩)],
   some Source.none, [], []⟩

/-- `wSt5` after deleting identifier `x` from header "A". -/
def wSt5' : MapState :=
  ⟨[("A".toList, ⟨true, "A".toList, Option.none, [], [⟨Source.bd, "y".toList⟩]⟩)],
   some Source.none, [], []⟩

/-- C5 witness: the amended theorem applied to a delete that leaves the
header in place — the repeated call is then the safe no-op. -/
theorem mapDelete_second_call_witness :
    mapDelete wSt5 "A".toList ⟨Source.bd, "x".toList⟩ = PyOutcome.ok wSt5' ∧
    ((wSt5'.map.any (fun p => p.1 = "A".toList) = true →
        mapDelete wSt5' "A".toList ⟨Source.bd, "x".toList⟩ = PyOutcome.ok wSt5') ∧
     (wSt5'.map.any (fun p => p.1 = "A".toList) = false →
        mapDelete wSt5' "A".toList ⟨Source.bd, "x".toList⟩ = PyOutcome.keyError wSt5')) := by
  refine ⟨by decide, ?_⟩
  exact mapDelete_second_call wSt5 "A".toList ⟨Source.bd, "x".toList⟩ wSt5' (by decide)

/-- Total number of occurrences of `i` across all headers' identifier
lists. -/
def occCount (m : List (List Char × Header)) (i : Identifier) : Nat :=
  (m.map (fun kh => kh.2.identifiers.count i)).sum

/-- Number of occurrences of `i` in the identifier lists stored under key
`k`. -/
def keyCount (m : List (List Char × Header)) (k : List Char) (i : Identifier) : Nat :=
  ((m.filter (fun kh => kh.1 = k)).map (fun kh => kh.2.identifiers.count i)).sum

lemma count_append_singleton_ne {ids : List Identifier} {i j : Identifier} (h : i ≠ j) :
    (ids ++ [i]).count j = ids.count j := by
  simp [List.count_append, List.count_cons, h]

lemma count_append_singleton_self (ids : List Identifier) (i : Identifier) :
    (ids ++ [i]).count i = ids.count i + 1 := by
  simp [List.count_append]

lemma occCount_cons (p : List Char × Header) (rest : List (List Char × Header)) (j : Identifier) :
    occCount (p :: rest) j = p.2.identifiers.count j + occCount rest j := by
  simp [occCount]

lemma keyCount_cons (p : List Char × Header) (rest : List (List Char × Header))
    (k : List Char) (j : Identifier) :
    keyCount (p :: rest) k j =
      (if p.1 = k then p.2.identifiers.count j else 0) + keyCount rest k j := by
  by_cases hp : p.1 = k <;> simp [keyCount, hp]

lemma keysOf_cons (p : List Char × Header) (rest : List (List Char × Header)) :
    keysOf (p :: rest) = p.1 :: keysOf rest := rfl

lemma appendToHeader_not_mem (m : List (List Char × Header)) (k : List Char) (i : Identifier)
    (h : ¬ k ∈ keysOf m) : appendToHeader m k i = m := by
  induction m with
  | nil => rfl
  | cons p rest ih =>
    rw [keysOf_cons] at h
    have hp : ¬ p.1 = k := fun hh => h (hh ▸ List.mem_cons_self _ _)
    have h' : ¬ k ∈ keysOf rest := fun hh => h (List.mem_cons_of_mem _ hh)
    show (if p.1 = k then (p.1, { p.2 with identifiers := p.2.identifiers ++ [i] }) else p) ::
      appendToHeader rest k i = p :: rest
    rw [if_neg hp, ih h']

lemma occCount_appendToHeader_ne (m : List (List Char × Header)) (k : List Char)
    {i j : Identifier} (hij : i ≠ j) :
    occCount (appendToHeader m k i) j = occCount m j := by
  induction m with
  | nil => rfl
  | cons p rest ih =>
    show occCount ((if p.1 = k then (p.1, { p.2 with identifiers := p.2.identifiers ++ [i] }) else p) ::
      appendToHeader rest k i) j = _
    rw [occCount_cons, occCount_cons, ih]
    by_cases hp : p.1 = k
    · rw [if_pos hp]
      simp [count_append_singleton_ne hij]
    · rw [if_neg hp]

lemma occCount_appendToHeader_self (m : List (List Char × Header)) (k : List Char)
    (i : Identifier) (hnd : (keysOf m).Nodup) (hk : k ∈ keysOf m) :
    occCount (appendToHeader m k i) i = occCount m i + 1 := by
  induction m with
  | nil => cases hk
  | cons p rest ih =>
    rw [keysOf_cons] at hnd hk
    obtain ⟨hpn, hnd'⟩ := List.nodup_cons.1 hnd
    show occCount ((if p.1 = k then (p.1, { p.2 with identifiers := p.2.identifiers ++ [i] }) else p) ::
      appendToHeader rest k i) i = _
    rw [occCount_cons, occCount_cons]
    by_cases hp : p.1 = k
    · rw [if_pos hp]
      have hkr : ¬ k ∈ keysOf rest := hp ▸ hpn
      rw [appendToHeader_not_mem rest k i hkr]
      simp only [count_append_singleton_self]
      omega
    · rw [if_neg hp]
      have hk' : k ∈ keysOf rest := by
        rcases List.mem_cons.1 hk with h | h
        · exact absurd h.symm hp
        · exact h
      rw [ih hnd' hk']
      omega

lemma keyCount_appendToHeader_ne_id (m : List (List Char × Header)) (k k' : List Char)
    {i j : Identifier} (hij : i ≠ j) :
    keyCount (appendToHeader m k i) k' j = keyCount m k' j := by
  induction m with
  | nil => rfl
  | cons p rest ih =>
    show keyCount ((if p.1 = k then (p.1, { p.2 with identifiers := p.2.identifiers ++ [i] }) else p) ::
      appendToHeader rest k i) k' j = _
    rw [keyCount_cons, keyCount_cons, ih]
    by_cases hp : p.1 = k
    · rw [if_pos hp]
      by_cases hpk : p.1 = k' <;> simp [hpk, count_append_singleton_ne hij]
    · rw [if_neg hp]

lemma keyCount_appendToHeader_other_key (m : List (List Char × Header)) (k k' : List Char)
    (i : Identifier) (hkk : k' ≠ k) :
    keyCount (appendToHeader m k i) k' i = keyCount m k' i := by
  induction m with
  | nil => rfl
  | cons p rest ih =>
    show keyCount ((if p.1 = k then (p.1, { p.2 with identifiers := p.2.identifiers ++ [i] }) else p) ::
      appendToHeader rest k i) k' i = _
    rw [keyCount_cons, keyCount_cons, ih]
    by_cases hp : p.1 = k
    · rw [if_pos hp]
      have hne : ¬ p.1 = k' := fun hh => hkk (hh ▸ hp)
      simp [hne]
    · rw [if_neg hp]

lemma keyCount_appendToHeader_self (m : List (List Char × Header)) (k : List Char)
    (i : Identifier) (hnd : (keysOf m).Nodup) (hk : k ∈ keysOf m) :
    keyCount (appendToHeader m k i) k i = keyCount m k i + 1 := by
  induction m with
  | nil => cases hk
  | cons p rest ih =>
    rw [keysOf_cons] at hnd hk
    obtain ⟨hpn, hnd'⟩ := List.nodup_cons.1 hnd
    show keyCount ((if p.1 = k then (p.1, { p.2 with identifiers := p.2.identifiers ++ [i] }) else p) ::
      appendToHeader rest k i) k i = _
    rw [keyCount_cons, keyCount_cons]
    by_cases hp : p.1 = k
    · rw [if_pos hp]
      have hkr : ¬ k ∈ keysOf rest := hp ▸ hpn
      rw [appendToHeader_not_mem rest k i hkr]
      simp only [if_pos hp, count_append_singleton_self]
      omega
    · rw [if_neg hp]
      have hk' : k ∈ keysOf rest := by
        rcases List.mem_cons.1 hk with h | h
        · exact absurd h.symm hp
        · exact h
      rw [ih hnd' hk']
      simp only [if_neg hp]
      omega

lemma processRecord_frame (src : Source) (n2h : List (List Char × List Char))
    (mapIds : List Identifier) (st : MapState) (r : RecordM) (j : Identifier)
    (hne : (⟨src, r.identifier⟩ : Identifier) ≠ j) :
    occCount (processRecord src n2h mapIds st r).map j = occCount st.map j ∧
    (∀ k', keyCount (processRecord src n2h mapIds st r).map k' j = keyCount st.map k' j) ∧
    ((j ∈ (processRecord src n2h mapIds st r).unresolved) ↔ j ∈ st.unresolved) := by
  by_cases hm : (⟨src, r.identifier⟩ : Identifier) ∈ mapIds
  · rw [show processRecord src n2h mapIds st r = st from by simp [processRecord, hm]]
    exact ⟨rfl, fun _ => rfl, Iff.rfl⟩
  · cases hfn : findName n2h r.names with
    | some k =>
      have hmap : (processRecord src n2h mapIds st r).map =
          appendToHeader st.map k ⟨src, r.identifier⟩ := by
        simp [processRecord, hm, hfn]
      have hunres : (processRecord src n2h mapIds st r).unresolved = st.unresolved := by
        simp [processRecord, hm, hfn]
      rw [hmap, hunres]
      exact ⟨occCount_appendToHeader_ne _ _ hne,
        fun k' => keyCount_appendToHeader_ne_id _ _ _ hne, Iff.rfl⟩
    | none =>
      have hmap : (processRecord src n2h mapIds st r).map = st.map := by
        simp [processRecord, hm, hfn]
      have hunres : (processRecord src n2h mapIds st r).unresolved =
          st.unresolved ++ [⟨src, r.identifier⟩] := by
        simp [processRecord, hm, hfn]
      rw [hmap, hunres]
      refine ⟨rfl, fun _ => rfl, ?_⟩
      simp [List.mem_append, Ne.symm hne]

lemma procFold_frame (src : Source) (n2h : List (List Char × List Char))
    (mapIds : List Identifier) (l : List RecordM) (st : MapState) (j : Identifier)
    (hne : ∀ r ∈ l, (⟨src, r.identifier⟩ : Identifier) ≠ j) :
    occCount (procFold src n2h mapIds l st).map j = occCount st.map j ∧
    (∀ k', keyCount (procFold src n2h mapIds l st).map k' j = keyCount st.map k' j) ∧
    ((j ∈ (procFold src n2h mapIds l st).unresolved) ↔ j ∈ st.unresolved) := by
  induction l generalizing st with
  | nil => exact ⟨rfl, fun _ => rfl, Iff.rfl⟩
  | cons r rest ih =>
    have h0 := processRecord_frame src n2h mapIds st r j (hne r (List.mem_cons_self _ _))
    have h1 := ih (processRecord src n2h mapIds st r)
      (fun r' hr' => hne r' (List.mem_cons_of_mem _ hr'))
    exact ⟨h1.1.trans h0.1, fun k' => (h1.2.1 k').trans (h0.2.1 k'), h1.2.2.trans h0.2.2⟩

lemma procFold_append (src : Source) (n2h : List (List Char × List Char))
    (mapIds : List Identifier) (l1 l2 : List RecordM) (st : MapState) :
    procFold src n2h mapIds (l1 ++ l2) st =
      procFold src n2h mapIds l2 (procFold src n2h mapIds l1 st) := by
  simp [procFold, List.foldl_append]

/-- Outcome of the resolution loop for one record `r` of the batch
`l1 ++ r :: l2`, when no other record of the batch carries `r`'s identifier
string: `r`'s identifier is either skipped (already in `mapIds`), appended to
exactly one header exactly once, or appended to `unresolved` — and never more
than one of these. -/
lemma procFold_outcomes (src : Source) (n2h : List (List Char × List Char))
    (mapIds : List Identifier) (l1 : List RecordM) (r : RecordM) (l2 : List RecordM)
    (stIn : MapState)
    (hne1 : ∀ r' ∈ l1, r'.identifier ≠ r.identifier)
    (hne2 : ∀ r' ∈ l2, r'.identifier ≠ r.identifier)
    (hkeysnd : (keysOf stIn.map).Nodup)
    (hkeysn2h : ∀ ns k, findName n2h ns = some k → k ∈ keysOf stIn.map)
    (hu0 : stIn.unresolved = []) :
    ((⟨src, r.identifier⟩ : Identifier) ∈ mapIds ∧
      (⟨src, r.identifier⟩ : Identifier) ∉
        (procFold src n2h mapIds (l1 ++ r :: l2) stIn).unresolved ∧
      occCount (procFold src n2h mapIds (l1 ++ r :: l2) stIn).map ⟨src, r.identifier⟩ =
        occCount stIn.map ⟨src, r.identifier⟩) ∨
    ((⟨src, r.identifier⟩ : Identifier) ∉ mapIds ∧
      (⟨src, r.identifier⟩ : Identifier) ∉
        (procFold src n2h mapIds (l1 ++ r :: l2) stIn).unresolved ∧
      occCount (procFold src n2h mapIds (l1 ++ r :: l2) stIn).map ⟨src, r.identifier⟩ =
        occCount stIn.map ⟨src, r.identifier⟩ + 1 ∧
      ∃ k ∈ keysOf stIn.map,
        keyCount (procFold src n2h mapIds (l1 ++ r :: l2) stIn).map k ⟨src, r.identifier⟩ =
          keyCount stIn.map k ⟨src, r.identifier⟩ + 1 ∧
        ∀ k', k' ≠ k →
          keyCount (procFold src n2h mapIds (l1 ++ r :: l2) stIn).map k' ⟨src, r.identifier⟩ =
            keyCount stIn.map k' ⟨src, r.identifier⟩) ∨
    ((⟨src, r.identifier⟩ : Identifier) ∉ mapIds ∧
      (⟨src, r.identifier⟩ : Identifier) ∈
        (procFold src n2h mapIds (l1 ++ r :: l2) stIn).unresolved ∧
      occCount (procFold src n2h mapIds (l1 ++ r :: l2) stIn).map ⟨src, r.identifier⟩ =
        occCount stIn.map ⟨src, r.identifier⟩) := by
  have hne1' : ∀ r' ∈ l1, (⟨src, r'.identifier⟩ : Identifier) ≠ ⟨src, r.identifier⟩ := by
    intro r' hr' heq
    exact hne1 r' hr' (congrArg Identifier.identifier heq)
  have hne2' : ∀ r' ∈ l2, (⟨src, r'.identifier⟩ : Identifier) ≠ ⟨src, r.identifier⟩ := by
    intro r' hr' heq
    exact hne2 r' hr' (congrArg Identifier.identifier heq)
  have hsplit : procFold src n2h mapIds (l1 ++ r :: l2) stIn =
      procFold src n2h mapIds l2
        (processRecord src n2h mapIds (procFold src n2h mapIds l1 stIn) r) := by
    rw [procFold_append]
    rfl
  have hfr1 := procFold_frame src n2h mapIds l1 stIn ⟨src, r.identifier⟩ hne1'
  have hfr2 := procFold_frame src n2h mapIds l2
    (processRecord src n2h mapIds (procFold src n2h mapIds l1 stIn) r) ⟨src, r.identifier⟩ hne2'
  have hkeysA : keysOf (procFold src n2h mapIds l1 stIn).map = keysOf stIn.map :=
    procFold_keys src n2h mapIds l1 stIn
  by_cases hm : (⟨src, r.identifier⟩ : Identifier) ∈ mapIds
  · left
    have hstep : processRecord src n2h mapIds (procFold src n2h mapIds l1 stIn) r =
        procFold src n2h mapIds l1 stIn := by
      simp [processRecord, hm]
    rw [hstep] at hfr2
    rw [hsplit, hstep]
    refine ⟨hm, ?_, ?_⟩
    · intro hmem
      have hend := (hfr2.2.2.trans hfr1.2.2).1 hmem
      rw [hu0] at hend
      cases hend
    · exact hfr2.1.trans hfr1.1
  · cases hfn : findName n2h r.names with
    | some k =>
      right; left
      have hstepmap : (processRecord src n2h mapIds (procFold src n2h mapIds l1 stIn) r).map =
          appendToHeader (procFold src n2h mapIds l1 stIn).map k ⟨src, r.identifier⟩ := by
        simp [processRecord, hm, hfn]
      have hstepunres :
          (processRecord src n2h mapIds (procFold src n2h mapIds l1 stIn) r).unresolved =
          (procFold src n2h mapIds l1 stIn).unresolved := by
        simp [processRecord, hm, hfn]
      have hkA := hkeysn2h r.names k hfn
      have hkA' : k ∈ keysOf (procFold src n2h mapIds l1 stIn).map := by
        rw [hkeysA]
        exact hkA
      have hndA : (keysOf (procFold src n2h mapIds l1 stIn).map).Nodup := by
        rw [hkeysA]
        exact hkeysnd
      refine ⟨hm, ?_, ?_, ⟨k, hkA, ?_, ?_⟩⟩
      · intro hmem
        rw [hsplit] at hmem
        have := hfr2.2.2.1 hmem
        rw [hstepunres] at this
        have := hfr1.2.2.1 this
        rw [hu0] at this
        cases this
      · rw [hsplit]
        rw [hfr2.1, hstepmap, occCount_appendToHeader_self _ _ _ hndA hkA', hfr1.1]
      · rw [hsplit]
        rw [hfr2.2.1 k, hstepmap, keyCount_appendToHeader_self _ _ _ hndA hkA', hfr1.2.1 k]
      · intro k' hk'
        rw [hsplit]
        rw [hfr2.2.1 k', hstepmap, keyCount_appendToHeader_other_key _ _ _ _ hk', hfr1.2.1 k']
    | none =>
      right; right
      have hstepmap : (processRecord src n2h mapIds (procFold src n2h mapIds l1 stIn) r).map =
          (procFold src n2h mapIds l1 stIn).map := by
        simp [processRecord, hm, hfn]
      have hstepunres :
          (processRecord src n2h mapIds (procFold src n2h mapIds l1 stIn) r).unresolved =
          (procFold src n2h mapIds l1 stIn).unresolved ++ [⟨src, r.identifier⟩] := by
        simp [processRecord, hm, hfn]
      refine ⟨hm, ?_, ?_⟩
      · rw [hsplit]
        apply hfr2.2.2.2
        rw [hstepunres]
        exact List.mem_append_right _ (List.mem_singleton.2 rfl)
      · rw [hsplit]
        rw [hfr2.1, hstepmap, hfr1.1]

/-- C2: after a successful `Map.append` of a non-empty same-source batch
(`Reader` batches carry pairwise-distinct identifier strings, and a real
`Map`'s header names are unique — the two `Nodup` hypotheses), every input
identifier lands in exactly one of three mutually exclusive outcomes: it was
already mapped for that source before the call and nothing changes for it; it
is newly appended to exactly one header's identifier list exactly once; or it
is placed in `unresolved` and not added to any header. -/
theorem mapAppend_partitions_batch (st : MapState) (r0 : RecordM) (rest : List RecordM)
    (st1 : MapState)
    (hnd : ((r0 :: rest).map (fun r => r.identifier)).Nodup)
    (hkeys : (keysOf st.map).Nodup)
    (h1 : mapAppend st (r0 :: rest) = PyOutcome.ok st1) :
    ∀ r ∈ r0 :: rest,
      ((⟨r0.source, r.identifier⟩ : Identifier) ∈ buildMapIdentifiers r0.source st.map [] ∧
        (⟨r0.source, r.identifier⟩ : Identifier) ∉ st1.unresolved ∧
        occCount st1.map ⟨r0.source, r.identifier⟩ = occCount st.map ⟨r0.source, r.identifier⟩) ∨
      ((⟨r0.source, r.identifier⟩ : Identifier) ∉ buildMapIdentifiers r0.source st.map [] ∧
        (⟨r0.source, r.identifier⟩ : Identifier) ∉ st1.unresolved ∧
        occCount st1.map ⟨r0.source, r.identifier⟩ =
          occCount st.map ⟨r0.source, r.identifier⟩ + 1 ∧
        ∃ k ∈ keysOf st.map,
          keyCount st1.map k ⟨r0.source, r.identifier⟩ =
            keyCount st.map k ⟨r0.source, r.identifier⟩ + 1 ∧
          ∀ k', k' ≠ k → keyCount st1.map k' ⟨r0.source, r.identifier⟩ =
            keyCount st.map k' ⟨r0.source, r.identifier⟩) ∨
      ((⟨r0.source, r.identifier⟩ : Identifier) ∉ buildMapIdentifiers r0.source st.map [] ∧
        (⟨r0.source, r.identifier⟩ : Identifier) ∈ st1.unresolved ∧
        occCount st1.map ⟨r0.source, r.identifier⟩ = occCount st.map ⟨r0.source, r.identifier⟩) := by
  obtain ⟨h0, hsrc, hform⟩ := mapAppend_ok_inv st r0 rest st1 h1
  intro r hr
  obtain ⟨l1, l2, hB⟩ := List.append_of_mem hr
  have hndB : ((l1 ++ r :: l2).map (fun r => r.identifier)).Nodup := by
    rw [← hB]
    exact hnd
  rw [List.map_append, List.map_cons] at hndB
  obtain ⟨hnd1, hndcons, hdisj⟩ := List.nodup_append.1 hndB
  have hrnotin2 : r.identifier ∉ l2.map (fun r => r.identifier) :=
    (List.nodup_cons.1 hndcons).1
  have hne1 : ∀ r' ∈ l1, r'.identifier ≠ r.identifier := by
    intro r' hr' heq
    exact hdisj (List.mem_map_of_mem _ hr') (by rw [heq]; exact List.mem_cons_self _ _)
  have hne2 : ∀ r' ∈ l2, r'.identifier ≠ r.identifier := by
    intro r' hr' heq
    exact hrnotin2 (heq ▸ List.mem_map_of_mem _ hr')
  have hkeysn2h : ∀ ns k, findName (buildNameToHeader st.map []) ns = some k →
      k ∈ keysOf ({ st with source := some r0.source, unresolved := [], dangled := [] } : MapState).map := by
    intro ns k hk
    rcases findName_exists_entry hk with ⟨kh, hkh, hk1⟩
    exact List.mem_map.2 ⟨kh, hkh, hk1⟩
  have hout := procFold_outcomes r0.source (buildNameToHeader st.map [])
    (buildMapIdentifiers r0.source st.map []) l1 r l2
    { st with source := some r0.source, unresolved := [], dangled := [] }
    hne1 hne2 hkeys hkeysn2h rfl
  have hmap1 : st1.map = (procFold r0.source (buildNameToHeader st.map [])
      (buildMapIdentifiers r0.source st.map []) (l1 ++ r :: l2)
      { st with source := some r0.source, unresolved := [], dangled := [] }).map := by
    rw [hform, hB]
  have hunres1 : st1.unresolved = (procFold r0.source (buildNameToHeader st.map [])
      (buildMapIdentifiers r0.source st.map []) (l1 ++ r :: l2)
      { st with source := some r0.source, unresolved := [], dangled := [] }).unresolved := by
    rw [hform, hB]
  rw [hmap1, hunres1]
  exact hout

/-- A one-header map for the C2 witness. -/
def wSt2 : MapState :=
  ⟨[("HDR".toList, ⟨true, "HDR".toList, Option.none, ["Alpha".toList], []⟩)],
   some Source.none, [], []⟩

/-- Witness record that links to "HDR" by name. -/
def wR2a : RecordM := ⟨Source.bd, "p1".toList, ["alpha".toList]⟩

/-- Witness record that stays unresolved. -/
def wR2b : RecordM := ⟨Source.bd, "p2".toList, ["beta".toList]⟩

/-- `wSt2` after appending `[wR2a, wR2b]`. -/
def wSt2' : MapState :=
  ⟨[("HDR".toList, ⟨true, "HDR".toList, Option.none, ["Alpha".toList],
      [⟨Source.bd, "p1".toList⟩]⟩)],
   some Source.bd, [⟨Source.bd, "p2".toList⟩], []⟩

/-- C2 witness: the partition theorem applied to a concrete two-record batch,
instantiated at the record that gets newly linked. -/
theorem mapAppend_partitions_batch_witness :
    ((wR2a :: [wR2b]).map (fun r => r.identifier)).Nodup ∧
    (keysOf wSt2.map).Nodup ∧
    mapAppend wSt2 (wR2a :: [wR2b]) = PyOutcome.ok wSt2' ∧
    (((⟨wR2a.source, wR2a.identifier⟩ : Identifier) ∈ buildMapIdentifiers wR2a.source wSt2.map [] ∧
        (⟨wR2a.source, wR2a.identifier⟩ : Identifier) ∉ wSt2'.unresolved ∧
        occCount wSt2'.map ⟨wR2a.source, wR2a.identifier⟩ =
          occCount wSt2.map ⟨wR2a.source, wR2a.identifier⟩) ∨
      ((⟨wR2a.source, wR2a.identifier⟩ : Identifier) ∉ buildMapIdentifiers wR2a.source wSt2.map [] ∧
        (⟨wR2a.source, wR2a.identifier⟩ : Identifier) ∉ wSt2'.unresolved ∧
        occCount wSt2'.map ⟨wR2a.source, wR2a.identifier⟩ =
          occCount wSt2.map ⟨wR2a.source, wR2a.identifier⟩ + 1 ∧
        ∃ k ∈ keysOf wSt2.map,
          keyCount wSt2'.map k ⟨wR2a.source, wR2a.identifier⟩ =
            keyCount wSt2.map k ⟨wR2a.source, wR2a.identifier⟩ + 1 ∧
          ∀ k', k' ≠ k → keyCount wSt2'.map k' ⟨wR2a.source, wR2a.identifier⟩ =
            keyCount wSt2.map k' ⟨wR2a.source, wR2a.identifier⟩) ∨
      ((⟨wR2a.source, wR2a.identifier⟩ : Identifier) ∉ buildMapIdentifiers wR2a.source wSt2.map [] ∧
        (⟨wR2a.source, wR2a.identifier⟩ : Identifier) ∈ wSt2'.unresolved ∧
        occCount wSt2'.map ⟨wR2a.source, wR2a.identifier⟩ =
          occCount wSt2.map ⟨wR2a.source, wR2a.identifier⟩)) := by
  refine ⟨by decide, by decide, by decide, ?_⟩
  exact mapAppend_partitions_batch wSt2 wR2a [wR2b] wSt2' (by decide) (by decide) (by decide)
    wR2a (List.mem_cons_self _ _)


end FluorTools
